import Mathlib

/-!
Verification development for the block-production core of blackcoin-more
(src/pos.cpp and src/node/miner.cpp): a shallow embedding of the
proof-of-stake kernel check, the stake cache, the proof-of-stake
validation entry point, and the miner's package selector and block
assembler, together with theorems settling the specification claims.

Machine integers are modelled as Nat/Int with explicit reductions
modulo 2^w where the C++ code can overflow.  Code of the repository that
is not part of the two given source files (serialisation, hashing,
arith_uint256, the UTXO view, the mempool indices, chain and wallet
services) is modelled from the specification; each such definition says
so in its doc comment.
-/

/- ===================== Bytes and serialisation ===================== -/

/-- Modelled from the spec: canonical little-endian serialisation of a
32-bit unsigned integer as 4 bytes (the project serialiser for u32). -/
def ser32 (x : Nat) : List Nat :=
  [x % 256, x / 256 % 256, x / 65536 % 256, x / 16777216 % 256]

/-- Modelled from the spec: serialisation of a uint256 as its 32 raw
bytes, little-endian (the internal byte order of uint256). -/
def ser256 (x : Nat) : List Nat :=
  (List.range 32).map (fun i => x / 256 ^ i % 256)

/-- Modelled from the spec: read a byte string as a little-endian
unsigned integer; this is how UintToArith256 interprets a uint256. -/
def leBytesToNat (bs : List Nat) : Nat :=
  bs.foldr (fun b acc => acc * 256 + b) 0

/-- Big-endian bytes of a 32-bit word (used inside SHA-256). -/
def be32 (x : Nat) : List Nat :=
  [x / 16777216 % 256, x / 65536 % 256, x / 256 % 256, x % 256]

/-- Big-endian bytes of a 64-bit length field (used in SHA-256 padding). -/
def be64 (x : Nat) : List Nat :=
  (List.range 8).map (fun i => x / 256 ^ (7 - i) % 256)

/- ===================== SHA-256 ===================== -/

/-- 32-bit right rotation. -/
def rotr32 (n x : Nat) : Nat :=
  ((x >>> n) ||| (x <<< (32 - n))) % 4294967296

/-- SHA-256 big sigma 0. -/
def sigBig0 (x : Nat) : Nat := rotr32 2 x ^^^ rotr32 13 x ^^^ rotr32 22 x

/-- SHA-256 big sigma 1. -/
def sigBig1 (x : Nat) : Nat := rotr32 6 x ^^^ rotr32 11 x ^^^ rotr32 25 x

/-- SHA-256 small sigma 0. -/
def sigSml0 (x : Nat) : Nat := rotr32 7 x ^^^ rotr32 18 x ^^^ (x >>> 3)

/-- SHA-256 small sigma 1. -/
def sigSml1 (x : Nat) : Nat := rotr32 17 x ^^^ rotr32 19 x ^^^ (x >>> 10)

/-- SHA-256 choice function. -/
def chF (e f g : Nat) : Nat := (e &&& f) ^^^ ((e ^^^ 4294967295) &&& g)

/-- SHA-256 majority function. -/
def majF (a b c : Nat) : Nat := (a &&& b) ^^^ (a &&& c) ^^^ (b &&& c)

/-- SHA-256 round constants. -/
def sha256K : List Nat :=
  [1116352408, 1899447441, 3049323471, 3921009573,
   961987163, 1508970993, 2453635748, 2870763221,
   3624381080, 310598401, 607225278, 1426881987,
   1925078388, 2162078206, 2614888103, 3248222580,
   3835390401, 4022224774, 264347078, 604807628,
   770255983, 1249150122, 1555081692, 1996064986,
   2554220882, 2821834349, 2952996808, 3210313671,
   3336571891, 3584528711, 113926993, 338241895,
   666307205, 773529912, 1294757372, 1396182291,
   1695183700, 1986661051, 2177026350, 2456956037,
   2730485921, 2820302411, 3259730800, 3345764771,
   3516065817, 3600352804, 4094571909, 275423344,
   430227734, 506948616, 659060556, 883997877,
   958139571, 1322822218, 1537002063, 1747873779,
   1955562222, 2024104815, 2227730452, 2361852424,
   2428436474, 2756734187, 3204031479, 3329325298]

/-- SHA-256 working state: eight 32-bit words. -/
structure SHAState where
  a : Nat
  b : Nat
  c : Nat
  d : Nat
  e : Nat
  f : Nat
  g : Nat
  h8 : Nat
deriving DecidableEq

/-- SHA-256 initial hash value. -/
def sha256Init : SHAState :=
  ⟨1779033703, 3144134277, 1013904242, 2773480762,
   1359893119, 2600822924, 528734635, 1541459225⟩

/-- Group a byte list (length a multiple of 4) into 32-bit big-endian words. -/
def beWords : List Nat → List Nat
  | b0 :: b1 :: b2 :: b3 :: rest =>
      (((b0 * 256 + b1) * 256 + b2) * 256 + b3) :: beWords rest
  | _ => []

/-- Extend the 16-word message schedule by `n` further words. -/
def sha256Extend : Nat → List Nat → List Nat
  | 0, ws => ws
  | n + 1, ws =>
      let i := ws.length
      let w := (sigSml1 (ws.getD (i - 2) 0) + ws.getD (i - 7) 0 +
                sigSml0 (ws.getD (i - 15) 0) + ws.getD (i - 16) 0) % 4294967296
      sha256Extend n (ws ++ [w])

/-- One SHA-256 round. -/
def shaRound (s : SHAState) (k w : Nat) : SHAState :=
  let t1 := (s.h8 + sigBig1 s.e + chF s.e s.f s.g + k + w) % 4294967296
  let t2 := (sigBig0 s.a + majF s.a s.b s.c) % 4294967296
  { a := (t1 + t2) % 4294967296, b := s.a, c := s.b, d := s.c,
    e := (s.d + t1) % 4294967296, f := s.e, g := s.f, h8 := s.g }

/-- SHA-256 compression of one 64-byte block. -/
def shaCompress (hs : SHAState) (block : List Nat) : SHAState :=
  let ws := sha256Extend 48 (beWords block)
  let s := (sha256K.zip ws).foldl (fun s kw => shaRound s kw.1 kw.2) hs
  { a := (hs.a + s.a) % 4294967296, b := (hs.b + s.b) % 4294967296,
    c := (hs.c + s.c) % 4294967296, d := (hs.d + s.d) % 4294967296,
    e := (hs.e + s.e) % 4294967296, f := (hs.f + s.f) % 4294967296,
    g := (hs.g + s.g) % 4294967296, h8 := (hs.h8 + s.h8) % 4294967296 }

/-- SHA-256 padding: append 0x80, zeros, and the 64-bit big-endian bit length. -/
def sha256Pad (msg : List Nat) : List Nat :=
  let L := msg.length
  let k := (120 - (L + 1) % 64) % 64
  msg ++ [128] ++ List.replicate k 0 ++ be64 (8 * L)

/-- Split a byte list into 64-byte blocks (fuel-driven). -/
def chunks64 : Nat → List Nat → List (List Nat)
  | 0, _ => []
  | _ + 1, [] => []
  | fuel + 1, l => l.take 64 :: chunks64 fuel (l.drop 64)

/-- SHA-256 of a byte list, as 32 big-endian bytes. -/
def sha256 (msg : List Nat) : List Nat :=
  let padded := sha256Pad msg
  let hs := (chunks64 padded.length padded).foldl shaCompress sha256Init
  be32 hs.a ++ be32 hs.b ++ be32 hs.c ++ be32 hs.d ++
  be32 hs.e ++ be32 hs.f ++ be32 hs.g ++ be32 hs.h8

/-- Modelled from the spec: `H` of the kernel protocol is double SHA-256
(CHashWriter.GetHash, defined in hash.h which is outside the two given
source files). -/
def sha256d (msg : List Nat) : List Nat := sha256 (sha256 msg)

/- ===================== Hash writer and kernel pre-image ===================== -/

/-- Modelled from the spec: CHashWriter accumulates serialised bytes;
GetHash returns the double SHA-256 of the stream. -/
structure HashWriter where
  data : List Nat

/-- Stream a u32 into the writer (little-endian), as operator<< does. -/
def HashWriter.writeUInt32 (s : HashWriter) (x : Nat) : HashWriter :=
  ⟨s.data ++ ser32 x⟩

/-- Stream a uint256 into the writer (32 raw bytes), as operator<< does. -/
def HashWriter.writeUInt256 (s : HashWriter) (x : Nat) : HashWriter :=
  ⟨s.data ++ ser256 x⟩

/-- Modelled from the spec: CHashWriter.GetHash, double SHA-256 of the
accumulated stream, read as a uint256. -/
def HashWriter.getHashBytes (s : HashWriter) : List Nat :=
  sha256d s.data

/-- An outpoint: transaction hash (uint256 as Nat) and output index (u32). -/
structure COutPoint where
  hash : Nat
  n : Nat
deriving DecidableEq

/-- The byte stream hashed by CheckStakeKernelHash, built exactly as the
source builds it: `ss << nStakeModifier; ss << blockFromTime <<
prevout.hash << prevout.n << nTimeTx` (pos.cpp lines 96-98). -/
def kernelPreimage (nStakeModifier blockFromTime : Nat) (prevout : COutPoint) (nTimeTx : Nat) : List Nat :=
  (((((HashWriter.mk []).writeUInt256 nStakeModifier).writeUInt32 blockFromTime).writeUInt256 prevout.hash).writeUInt32 prevout.n).writeUInt32 nTimeTx |>.data

/-- hashProofOfStake of pos.cpp line 100, interpreted as a 256-bit
unsigned integer the way UintToArith256 does (little-endian). -/
def hashProofOfStake (nStakeModifier blockFromTime : Nat) (prevout : COutPoint) (nTimeTx : Nat) : Nat :=
  leBytesToNat (HashWriter.getHashBytes ⟨kernelPreimage nStakeModifier blockFromTime prevout nTimeTx⟩)

/- ===================== arith_uint256 compact target ===================== -/

/-- Modelled from the spec: arith_uint256.SetCompact (arith_uint256.cpp is
outside the two given source files): size byte and 23-bit mantissa,
shifted into a 256-bit integer, reduced mod 2^256. -/
def setCompact (nCompact : Nat) : Nat :=
  let nSize := nCompact >>> 24
  let nWord := nCompact &&& 0x007fffff
  if nSize ≤ 3 then nWord >>> (8 * (3 - nSize))
  else (nWord <<< (8 * (nSize - 3))) % 2 ^ 256

/-- Modelled from the spec: the conversion CAmount (int64) to
arith_uint256 goes through uint64, wrapping negative values. -/
def uint64Of (v : Int) : Nat := (v % 2 ^ 64).toNat

/-- The weighted target `bnTarget * bnWeight` of pos.cpp lines 83-91:
compact-expanded target times the prevout value, in 256-bit arithmetic. -/
def kernelWeightedTarget (nBits : Nat) (prevoutValue : Int) : Nat :=
  setCompact nBits * uint64Of prevoutValue % 2 ^ 256

/- ===================== pos.cpp data model ===================== -/

/-- Modelled from the spec: the ancestor block resolved by
CBlockIndex.GetAncestor; only its timestamp is consumed here. -/
structure AncestorBlock where
  nTime : Nat

/-- The block index fields consumed by pos.cpp: height, stake modifier,
and ancestor resolution (GetAncestor is modelled from the spec as a
partial map from heights). -/
structure CBlockIndexK where
  nHeight : Int
  nStakeModifier : Nat
  getAncestor : Int → Option AncestorBlock

/-- Modelled from the spec: the UTXO entry consumed by pos.cpp — the
creating height, the (optional, 0 when absent) transaction time, the
output value, and whether the coin is spent. -/
structure CoinM where
  nHeight : Int
  nTime : Nat
  outValue : Int
  isSpent : Bool

/-- CStakeCache: `(blockFromTime, amount)` memoised per outpoint. -/
structure CStakeCache where
  blockFromTime : Nat
  amount : Int

/- ===================== CheckStakeKernelHash ===================== -/

/-- CheckStakeKernelHash (pos.cpp lines 77-123), logging elided: reject
on a time violation or a zero value, else compare the kernel proof hash
against the value-weighted compact target. -/
def CheckStakeKernelHash (pindexPrev : CBlockIndexK) (nBits : Nat) (blockFromTime : Nat)
    (prevoutValue : Int) (prevout : COutPoint) (nTimeTx : Nat) : Bool :=
  if nTimeTx < blockFromTime then false
  else if prevoutValue = 0 then false
  else if hashProofOfStake pindexPrev.nStakeModifier blockFromTime prevout nTimeTx >
          kernelWeightedTarget nBits prevoutValue then false
  else true

/- ===================== CheckProofOfStake ===================== -/

/-- Outcome of CheckProofOfStake: success, a plain `error(...)` false
return (no validation-state code), or `state.Invalid` with its reject
reason string. -/
inductive PoSResult where
  | ok : PoSResult
  | fail : PoSResult
  | invalid : String → PoSResult
deriving DecidableEq

/-- The transaction fields consumed by CheckProofOfStake.  Modelled from
the spec: IsCoinStake is defined outside the two given source files
(input 0 signals coinstake), so it is carried as a predicate result;
vin0prevout is `tx.vin[0].prevout`. -/
structure CTxM where
  isCoinStake : Bool
  vin0prevout : COutPoint

/-- CheckProofOfStake (pos.cpp lines 126-158).  The UTXO view is a partial
map from outpoints to coins; `verifySig` is the external VerifySignature
capability (script interpreter, outside the given sources), and
`maturity` is Params().GetConsensus().nCoinbaseMaturity. -/
def CheckProofOfStake (maturity : Int) (verifySig : CoinM → CTxM → Bool)
    (pindexPrev : CBlockIndexK) (tx : CTxM) (nBits : Nat)
    (view : COutPoint → Option CoinM) (nTimeTx : Nat) : PoSResult :=
  if ¬ tx.isCoinStake then .fail
  else
    match view tx.vin0prevout with
    | none => .invalid "stake-prevout-not-exist"
    | some coinPrev =>
      if pindexPrev.nHeight + 1 - coinPrev.nHeight < maturity then
        .invalid "stake-prevout-not-mature"
      else
        match pindexPrev.getAncestor coinPrev.nHeight with
        | none => .invalid "stake-prevout-not-loaded"
        | some blockFrom =>
          if ¬ verifySig coinPrev tx then .invalid "stake-verify-signature-failed"
          else if ¬ CheckStakeKernelHash pindexPrev nBits
                     (if coinPrev.nTime ≠ 0 then coinPrev.nTime else blockFrom.nTime)
                     coinPrev.outValue tx.vin0prevout nTimeTx then
            .invalid "stake-check-kernel-failed"
          else .ok

/- ===================== CheckKernel ===================== -/

/-- The body of the cache-miss branch of the cached CheckKernel overload
(pos.cpp lines 171-189): full view lookup, maturity, ancestor, unspent
and kernel-hash check. -/
def CheckKernelView (maturity : Int) (pindexPrev : CBlockIndexK) (nBits : Nat) (nTime : Nat)
    (prevout : COutPoint) (view : COutPoint → Option CoinM) : Bool :=
  match view prevout with
  | none => false
  | some coinPrev =>
    if pindexPrev.nHeight + 1 - coinPrev.nHeight < maturity then false
    else
      match pindexPrev.getAncestor coinPrev.nHeight with
      | none => false
      | some blockFrom =>
        if coinPrev.isSpent then false
        else CheckStakeKernelHash pindexPrev nBits
               (if coinPrev.nTime ≠ 0 then coinPrev.nTime else blockFrom.nTime)
               coinPrev.outValue prevout nTime

/-- The no-cache CheckKernel overload (pos.cpp lines 160-163): it calls
the cached overload with an empty temporary map, whose lookup always
misses, so it reduces to the authoritative view path. -/
def CheckKernel (maturity : Int) (pindexPrev : CBlockIndexK) (nBits : Nat) (nTime : Nat)
    (prevout : COutPoint) (view : COutPoint → Option CoinM) : Bool :=
  CheckKernelView maturity pindexPrev nBits nTime prevout view

/-- The cache-consulting CheckKernel overload (pos.cpp lines 165-199):
on a miss run the view path; on a hit that satisfies the target,
re-verify through the no-cache overload; a hit that fails is false. -/
def CheckKernelCached (maturity : Int) (pindexPrev : CBlockIndexK) (nBits : Nat) (nTime : Nat)
    (prevout : COutPoint) (view : COutPoint → Option CoinM)
    (cache : COutPoint → Option CStakeCache) : Bool :=
  match cache prevout with
  | none => CheckKernelView maturity pindexPrev nBits nTime prevout view
  | some stake =>
    if CheckStakeKernelHash pindexPrev nBits stake.blockFromTime stake.amount prevout nTime then
      CheckKernel maturity pindexPrev nBits nTime prevout view
    else false

/- ===================== Concrete instances used by witnesses ===================== -/

/-- A concrete block index used in witness instantiations. -/
def pidxW : CBlockIndexK :=
  ⟨100000, 12345, fun h => if h = 50 then some ⟨900⟩ else none⟩

/-- A concrete outpoint used in witness instantiations. -/
def poW : COutPoint := ⟨777, 1⟩

/-- A concrete UTXO view holding one mature unspent coin of value 2. -/
def viewW : COutPoint → Option CoinM :=
  fun po => if po = poW then some ⟨50, 900, 2, false⟩ else none

/-- A concrete stake cache agreeing with `viewW` on `poW`. -/
def cacheW : COutPoint → Option CStakeCache :=
  fun po => if po = poW then some ⟨900, 2⟩ else none

/- ===================== miner.cpp: constants and options ===================== -/

/-- WITNESS_SCALE_FACTOR (consensus constant, outside the given sources). -/
def witnessScaleFactor : Nat := 4

/-- Modelled from the spec: MAX_BLOCK_SIGOPS_COST consensus constant. -/
def MAX_BLOCK_SIGOPS_COST : Nat := 80000

/-- Modelled from the spec: DEFAULT_BLOCK_MAX_WEIGHT, the upper clamp of
the block weight option. -/
def DEFAULT_BLOCK_MAX_WEIGHT : Nat := 3996000

/-- MAX_CONSECUTIVE_FAILURES (miner.cpp line 422). -/
def MAX_CONSECUTIVE_FAILURES : Int := 1000

/-- Modelled from the spec: CFeeRate.GetFee — the fee for `numBytes`
bytes at `nSatoshisPerK` satoshis per 1000 bytes, truncated toward
zero, bumped to plus or minus one satoshi when a nonzero rate rounds
to zero. -/
def feeRateGetFee (nSatoshisPerK : Int) (numBytes : Nat) : Int :=
  let nFee := Int.tdiv (nSatoshisPerK * numBytes) 1000
  if nFee = 0 ∧ numBytes ≠ 0 then
    if nSatoshisPerK > 0 then 1
    else if nSatoshisPerK < 0 then -1
    else nFee
  else nFee

/-- The two block-assembly options the selector consumes. -/
structure AssemblerOptions where
  nBlockMaxWeight : Nat
  blockMinFeeRate : Int
deriving DecidableEq

/-- ClampOptions (miner.cpp lines 94-99): weight clamped to
[4000, DEFAULT_BLOCK_MAX_WEIGHT]. -/
def clampOptions (o : AssemblerOptions) : AssemblerOptions :=
  { o with nBlockMaxWeight := max 4000 (min o.nBlockMaxWeight DEFAULT_BLOCK_MAX_WEIGHT) }

/- ===================== miner.cpp: mempool model ===================== -/

/-- Modelled from the spec: the mempool entry fields the selector
consumes — per-transaction data, the with-ancestor aggregates kept by
the mempool, the stored ancestor and descendant id sets (entry ids
stand in for txids), and the externally computed IsFinalTx verdict. -/
structure MemEntry where
  id : Nat
  txTime : Nat
  hasWitness : Bool
  isFinal : Bool
  fee : Int
  modifiedFee : Int
  txSize : Nat
  txWeight : Nat
  sigOpCost : Nat
  sizeWithAncestors : Nat
  modFeesWithAncestors : Int
  sigOpCostWithAncestors : Nat
  countWithAncestors : Nat
  ancestors : List Nat
  descendants : List Nat
deriving DecidableEq

/-- CTxMemPoolModifiedEntry (miner.h, modelled from the spec): an entry
whose ancestor aggregates are adjusted for ancestors already in the
block. -/
structure ModEntry where
  entry : MemEntry
  nSizeWithAncestors : Nat
  nModFeesWithAncestors : Int
  nSigOpCostWithAncestors : Nat
deriving DecidableEq

/-- A fresh modified entry starts from the mempool aggregates. -/
def initModEntry (e : MemEntry) : ModEntry :=
  ⟨e, e.sizeWithAncestors, e.modFeesWithAncestors, e.sigOpCostWithAncestors⟩

/-- update_for_parent_inclusion: subtract an included ancestor's own
size, modified fee and sigop cost (the C++ aggregates cannot underflow
because the ancestor is included in them). -/
def updateForParentInclusion (it : MemEntry) (m : ModEntry) : ModEntry :=
  { m with nSizeWithAncestors := m.nSizeWithAncestors - it.txSize,
           nModFeesWithAncestors := m.nModFeesWithAncestors - it.modifiedFee,
           nSigOpCostWithAncestors := m.nSigOpCostWithAncestors - it.sigOpCost }

/-- Modelled from the spec: the ancestor-fee comparator — packages
compared by fee rate with ancestors via cross multiplication, ties
broken by the secondary key of the index (entry id standing in for
txid).  True when the first package sorts strictly better. -/
def ancScoreBetter (aFees : Int) (aSize : Nat) (aId : Nat)
    (bFees : Int) (bSize : Nat) (bId : Nat) : Bool :=
  let f1 := aFees * (bSize : Int)
  let f2 := bFees * (aSize : Int)
  if f1 = f2 then decide (aId < bId) else decide (f1 > f2)

/-- The ancestor-fee comparator on modified entries. -/
def modEntryBetter (a b : ModEntry) : Bool :=
  ancScoreBetter a.nModFeesWithAncestors a.nSizeWithAncestors a.entry.id
    b.nModFeesWithAncestors b.nSizeWithAncestors b.entry.id

/-- The best (first in ancestor-score order) element of mapModifiedTx. -/
def bestMod : List ModEntry → Option ModEntry
  | [] => none
  | m :: ms =>
    match bestMod ms with
    | none => some m
    | some b => if modEntryBetter b m then some b else some m

/-- Membership in mapModifiedTx, keyed by entry id. -/
def memMod (mm : List ModEntry) (i : Nat) : Bool :=
  mm.any (fun m => m.entry.id == i)

/-- Erase from mapModifiedTx by entry id. -/
def eraseMod (mm : List ModEntry) (i : Nat) : List ModEntry :=
  mm.filter (fun m => m.entry.id != i)

/-- Look up pool entries by id, in the order the ids are listed (the
projection from stored id sets to entries). -/
def entriesOf (pool : List MemEntry) (ids : List Nat) : List MemEntry :=
  ids.filterMap (fun i => pool.find? (fun e => e.id = i))

/- ===================== miner.cpp: selector ===================== -/

/-- The context fixed for one addPackageTxs run: the mempool snapshot in
ancestor-score iteration order, the (already clamped) options, segwit
inclusion, the adjusted wall-clock time, and the block time handed in
by CreateNewBlock.  `sortFn` stands for `std::sort` with
CompareTxIterByAncestorCount: the standard sort guarantees a
count-ascending permutation but no tie order, so theorems constrain it
relationally. -/
structure SelCtx where
  pool : List MemEntry
  nBlockMaxWeight : Nat
  blockMinFeeRate : Int
  fIncludeWitness : Bool
  adjTime : Nat
  blockTime : Nat
  sortFn : List MemEntry → List MemEntry

/-- The selector state: the ordered ids added to the template (its
membership models the inBlock set), the running accumulators of
resetBlock, the modified set, the failed set, the consecutive-failure
counter, and the rest of the mapTx walk. -/
structure SelState where
  blockTxs : List Nat
  nBlockWeight : Nat
  nBlockSigOpsCost : Nat
  nBlockTx : Nat
  nFees : Int
  mapModifiedTx : List ModEntry
  failedTx : List Nat
  nConsecutiveFailed : Int
  mi : List MemEntry
deriving DecidableEq

/-- BlockAssembler.TestPackage (miner.cpp lines 302-312). -/
def TestPackage (nBlockMaxWeight nBlockWeight nBlockSigOpsCost : Nat)
    (packageSize packageSigOpsCost : Nat) : Bool :=
  if nBlockWeight + witnessScaleFactor * packageSize ≥ nBlockMaxWeight then false
  else if nBlockSigOpsCost + packageSigOpsCost ≥ MAX_BLOCK_SIGOPS_COST then false
  else true

/-- BlockAssembler.TestPackageTransactions (miner.cpp lines 319-334):
finality, premature witness, and the peercoin timestamp limit. -/
def TestPackageTransactions (C : SelCtx) (package : List MemEntry) : Bool :=
  package.all (fun e =>
    e.isFinal &&
    (C.fIncludeWitness || ! e.hasWitness) &&
    ! (decide (e.txTime > C.adjTime) ||
       (decide (C.blockTime ≠ 0) && decide (e.txTime > C.blockTime))))

/-- BlockAssembler.AddToBlock (miner.cpp lines 336-353): append the
transaction to the template and bump the accumulators. -/
def addToBlock (st : SelState) (e : MemEntry) : SelState :=
  { st with blockTxs := st.blockTxs ++ [e.id],
            nBlockWeight := st.nBlockWeight + e.txWeight,
            nBlockTx := st.nBlockTx + 1,
            nBlockSigOpsCost := st.nBlockSigOpsCost + e.sigOpCost,
            nFees := st.nFees + e.fee }

/-- Insert into a list sorted by a Nat key, keeping the new element
before equal keys. -/
def insertByKey (key : MemEntry → Nat) (x : MemEntry) : List MemEntry → List MemEntry
  | [] => [x]
  | y :: ys => if key x ≤ key y then x :: y :: ys else y :: insertByKey key x ys

/-- Insertion sort by a Nat key (structurally recursive so that concrete
selector runs evaluate inside the kernel). -/
def sortByKey (key : MemEntry → Nat) : List MemEntry → List MemEntry
  | [] => []
  | x :: xs => insertByKey key x (sortByKey key xs)

/-- Sort entries by id: models the iteration order of a std::set of
mempool iterators (CompareIteratorByHash; ids stand in for txids). -/
def sortById (l : List MemEntry) : List MemEntry :=
  sortByKey (fun e => e.id) l

/-- The package for a chosen entry (miner.cpp lines 511-514):
AssumeCalculateMemPoolAncestors reads the stored ancestor set with no
limits, onlyUnconfirmed drops entries already in the block, then the
chosen entry itself is inserted; the resulting set iterates by id. -/
def packageOf (C : SelCtx) (st : SelState) (iter : MemEntry) : List MemEntry :=
  sortById (((entriesOf C.pool iter.ancestors).filter
      (fun e => ! st.blockTxs.contains e.id)) ++ [iter])

/-- UpdatePackagesForAdded (miner.cpp lines 358-383): for every mempool
descendant of each just-added entry that was not itself added, create
its modified entry from the current mempool aggregates if missing, and
subtract the added ancestor from it. -/
def updatePackagesForAdded (pool : List MemEntry) (alreadyAdded : List MemEntry)
    (mm : List ModEntry) : List ModEntry :=
  alreadyAdded.foldl (fun acc it =>
    (entriesOf pool it.descendants).foldl (fun acc2 desc =>
      if alreadyAdded.any (fun a => a.id == desc.id) then acc2
      else
        let acc3 := if memMod acc2 desc.id then acc2 else initModEntry desc :: acc2
        acc3.map (fun m => if m.entry.id == desc.id then updateForParentInclusion it m else m))
      acc) mm

/-- The candidate chosen at the top of the selection loop: the entry,
whether it came from mapModifiedTx, and its package aggregates
(miner.cpp lines 448-485). -/
structure Cand where
  entry : MemEntry
  usingModified : Bool
  pkgSize : Nat
  pkgFees : Int
  pkgSigOps : Nat
deriving DecidableEq

/-- Choose between the head of the remaining mapTx walk and the best of
mapModifiedTx (miner.cpp lines 448-485); `mi` advances exactly when the
mapTx entry is taken.  Returns none only when both sources are empty. -/
def select (st : SelState) : Option (Cand × SelState) :=
  match st.mi with
  | [] =>
    match bestMod st.mapModifiedTx with
    | none => none
    | some m => some (⟨m.entry, true, m.nSizeWithAncestors, m.nModFeesWithAncestors,
        m.nSigOpCostWithAncestors⟩, st)
  | e :: rest =>
    match bestMod st.mapModifiedTx with
    | none => some (⟨e, false, e.sizeWithAncestors, e.modFeesWithAncestors,
        e.sigOpCostWithAncestors⟩, { st with mi := rest })
    | some m =>
      if modEntryBetter m (initModEntry e) then
        some (⟨m.entry, true, m.nSizeWithAncestors, m.nModFeesWithAncestors,
          m.nSigOpCostWithAncestors⟩, st)
      else
        some (⟨e, false, e.sizeWithAncestors, e.modFeesWithAncestors,
          e.sigOpCostWithAncestors⟩, { st with mi := rest })

/-- What one loop iteration did; candidate-evaluating events carry the
package aggregates of the evaluated candidate. -/
inductive SelEvent where
  | finished : SelEvent
  | skipped : SelEvent
  | floorExit : Nat → Int → Nat → SelEvent
  | pkgFailed : Nat → Int → Nat → SelEvent
  | txsFailed : Nat → Int → Nat → SelEvent
  | accepted : Nat → Int → Nat → List Nat → SelEvent
deriving DecidableEq

/-- Result of one iteration: `done` leaves the loop (early return,
break, or exhausted sources), `cont` re-enters it. -/
inductive StepRes where
  | done : SelState → SelEvent → StepRes
  | cont : SelState → SelEvent → StepRes
deriving DecidableEq

/-- One step of the acceptance loop of miner.cpp lines 532-536:
AddToBlock then erase the entry from mapModifiedTx. -/
def addLoopStep (s : SelState) (e : MemEntry) : SelState :=
  let s2 := addToBlock s e
  { s2 with mapModifiedTx := eraseMod s2.mapModifiedTx e.id }

/-- The failure bookkeeping shared by the TestPackage and
TestPackageTransactions failure paths: a candidate drawn from
mapModifiedTx is erased there and marked failed. -/
def markFailed (st : SelState) (c : Cand) : SelState :=
  if c.usingModified then
    { st with mapModifiedTx := eraseMod st.mapModifiedTx c.entry.id,
              failedTx := c.entry.id :: st.failedTx }
  else st

/-- The state after a TestPackage failure: the modified-set bookkeeping
of markFailed, then the consecutive-failure counter bump. -/
def failState (st1 : SelState) (c : Cand) : SelState :=
  { markFailed st1 c with
      nConsecutiveFailed := (markFailed st1 c).nConsecutiveFailed + 1 }

/-- The state after a package is accepted: counter reset, the sorted
package added to the block, each added entry erased from mapModifiedTx,
then UpdatePackagesForAdded over the package. -/
def acceptState (C : SelCtx) (st1 : SelState) (c : Cand) : SelState :=
  let st3 := (C.sortFn (packageOf C st1 c.entry)).foldl addLoopStep
      { st1 with nConsecutiveFailed := 0 }
  { st3 with mapModifiedTx :=
      updatePackagesForAdded C.pool (packageOf C st1 c.entry) st3.mapModifiedTx }

/-- Evaluation of the already chosen candidate (miner.cpp lines
487-541): fee floor early return, TestPackage with the
consecutive-failure heuristic, package construction,
TestPackageTransactions, and acceptance. -/
def evalChosen (C : SelCtx) (c : Cand) (st1 : SelState) : StepRes :=
  if c.pkgFees < feeRateGetFee C.blockMinFeeRate c.pkgSize then
    .done st1 (.floorExit c.pkgSize c.pkgFees c.pkgSigOps)
  else if ¬ TestPackage C.nBlockMaxWeight st1.nBlockWeight st1.nBlockSigOpsCost
              c.pkgSize c.pkgSigOps then
    if (failState st1 c).nConsecutiveFailed > MAX_CONSECUTIVE_FAILURES ∧
        (failState st1 c).nBlockWeight > C.nBlockMaxWeight - 4000 then
      .done (failState st1 c) (.pkgFailed c.pkgSize c.pkgFees c.pkgSigOps)
    else
      .cont (failState st1 c) (.pkgFailed c.pkgSize c.pkgFees c.pkgSigOps)
  else if ¬ TestPackageTransactions C (packageOf C st1 c.entry) then
    .cont (markFailed st1 c) (.txsFailed c.pkgSize c.pkgFees c.pkgSigOps)
  else
    .cont (acceptState C st1 c) (.accepted c.pkgSize c.pkgFees c.pkgSigOps
      ((C.sortFn (packageOf C st1 c.entry)).map (fun e => e.id)))

/-- Evaluate one candidate: selection followed by evaluation
(miner.cpp lines 448-541). -/
def evalCandidate (C : SelCtx) (st : SelState) : StepRes :=
  match select st with
  | none => .done st .finished
  | some (c, st1) => evalChosen C c st1

/-- One iteration of the selection loop (miner.cpp lines 425-542),
including the skip of stale mapTx heads. -/
def selStep (C : SelCtx) (st : SelState) : StepRes :=
  if st.mi.isEmpty && st.mapModifiedTx.isEmpty then .done st .finished
  else
    match st.mi with
    | e :: rest =>
      if memMod st.mapModifiedTx e.id || st.blockTxs.contains e.id ||
          st.failedTx.contains e.id then
        .cont { st with mi := rest } .skipped
      else evalCandidate C st
    | [] => evalCandidate C st

/-- The selection loop, fuel-bounded; the bound used by addPackageTxs
dominates the number of iterations the C++ loop can make. -/
def selLoop (C : SelCtx) : Nat → SelState → SelState
  | 0, st => st
  | fuel + 1, st =>
    match selStep C st with
    | .done st2 _ => st2
    | .cont st2 _ => selLoop C fuel st2

/-- The initial selector state produced by resetBlock (miner.cpp lines
127-139): 4000 weight and 400 sigops reserved for the coinbase. -/
def initSelState (pool : List MemEntry) : SelState :=
  ⟨[], 4000, 400, 0, 0, [], [], 0, pool⟩

/-- BlockAssembler.addPackageTxs (miner.cpp lines 406-543) over the
mempool snapshot held in the context. -/
def addPackageTxs (C : SelCtx) : SelState :=
  selLoop C ((C.pool.length + 2) * (C.pool.length + 2)) (initSelState C.pool)

/-- The executable instantiation of the SortForBlock comparator sort:
a count-ascending permutation (one behaviour std::sort may exhibit). -/
def sortByCount (l : List MemEntry) : List MemEntry :=
  sortByKey (fun e => e.countWithAncestors) l

/-- What `std::sort` with CompareTxIterByAncestorCount guarantees about
SortForBlock (miner.cpp lines 385-394): the output is a permutation of
the package sorted by ancestor count ascending; the order of ties is
not specified. -/
def SortForBlockSpec (input output : List MemEntry) : Prop :=
  output.Perm input ∧
  List.Pairwise (fun a b => a.countWithAncestors ≤ b.countWithAncestors) output

/- ===================== miner.cpp: header time and block assembly ===================== -/

/-- The header fields UpdateTime touches. -/
structure HeaderM where
  nTime : Int
  nBits : Nat
  isProofOfStake : Bool
deriving DecidableEq

/-- UpdateTime (miner.cpp lines 57-72): raise the header time to
max(median-time-past + 1, adjusted time) when that is strictly greater
than the current header time; on min-difficulty chains also recompute
the required target.  Returns the updated header and the difference
nNewTime - nOldTime. -/
def UpdateTime (adjTime medianTimePast : Int) (fPowAllowMinDifficultyBlocks : Bool)
    (nextTargetRequired : Bool → Nat) (b : HeaderM) : HeaderM × Int :=
  let nOldTime := b.nTime
  let nNewTime := max (medianTimePast + 1) adjTime
  let b1 := if nOldTime < nNewTime then { b with nTime := nNewTime } else b
  let b2 := if fPowAllowMinDifficultyBlocks then
      { b1 with nBits := nextTargetRequired b1.isProofOfStake } else b1
  (b2, nNewTime - nOldTime)

/-- A transaction output as the assembler observes it: value and whether
the script is empty (SetEmpty writes value 0 and an empty script). -/
structure TxOutM where
  nValue : Int
  scriptEmpty : Bool
deriving DecidableEq

/-- A transaction of the template under construction: timestamp and
outputs (the fields the claims observe). -/
structure BlockTxM where
  nTime : Nat
  vout : List TxOutM
deriving DecidableEq

/-- The assembled block: transactions, header time, target bits, and the
proof-of-stake marker set via nFlags. -/
structure BlockM where
  vtx : List BlockTxM
  nTime : Nat
  nBits : Nat
  isProofOfStake : Bool
deriving DecidableEq

/-- GetMaxTransactionTime (miner.cpp lines 74-80). -/
def getMaxTransactionTime (vtx : List BlockTxM) : Nat :=
  vtx.foldl (fun m tx => max m tx.nTime) 0

/-- The inputs and external capabilities CreateNewBlock consumes,
modelled from the spec: the mempool snapshot, options, segwit flag,
adjusted time, the tip's median time past, the consensus stake
timestamp mask, the static lastCoinStakeSearchTime, the targets that
GetNextTargetRequired would return, the block subsidy, and the wallet
CreateCoinStake capability (given the masked initial transaction time,
it returns the coinstake it built, whose nTime the wallet sets). -/
structure CNBCtx where
  pool : List MemEntry
  options : AssemblerOptions
  fIncludeWitness : Bool
  adjTime : Nat
  medianTimePast : Nat
  stakeTimestampMask : Nat
  lastCoinStakeSearchTime : Nat
  posBits : Nat
  powBits : Nat
  blockSubsidy : Int
  fPowAllowMinDifficultyBlocks : Bool
  createCoinStake : Nat → Option BlockTxM
  sortFn : List MemEntry → List MemEntry

/-- The masked initial coinstake transaction time of miner.cpp line 233:
nTime with the consensus stake timestamp mask bits cleared (the fresh
transaction time is the adjusted time, per the spec). -/
def maskedTime (C : CNBCtx) : Nat :=
  C.adjTime &&& (4294967295 ^^^ C.stakeTimestampMask)

/-- The selector context CreateNewBlock passes to addPackageTxs: options
clamped at BlockAssembler construction, blockTime = pblock-nTime which
line 171 set to the adjusted time. -/
def selCtxOf (C : CNBCtx) : SelCtx :=
  ⟨C.pool, (clampOptions C.options).nBlockMaxWeight, C.options.blockMinFeeRate,
   C.fIncludeWitness, C.adjTime, C.adjTime, C.sortFn⟩

/-- The mempool transactions the selector appended to the template, as
template transactions (their outputs are not observed by any claim and
are modelled empty). -/
def selectedTxs (C : CNBCtx) (sel : SelState) : List BlockTxM :=
  (entriesOf C.pool sel.blockTxs).map (fun e => ⟨e.txTime, []⟩)

/-- The proof-of-stake block the success branch of CreateNewBlock
returns: emptied coinbase carrying the coinstake time, the coinstake at
index 1, the selected mempool transactions, and the header time of
miner.cpp line 269. -/
def posBlockOf (C : CNBCtx) (cs : BlockTxM) : BlockM :=
  ⟨(⟨cs.nTime, [⟨0, true⟩]⟩ : BlockTxM) :: cs :: selectedTxs C (addPackageTxs (selCtxOf C)),
    max (C.medianTimePast + 1)
      (getMaxTransactionTime
        ((⟨cs.nTime, [⟨0, true⟩]⟩ : BlockTxM) :: cs ::
          selectedTxs C (addPackageTxs (selCtxOf C)))),
    C.posBits, true⟩

/-- BlockAssembler.CreateNewBlock (miner.cpp lines 141-288) restricted to
the fields the claims observe.  Runs the package selector, builds the
coinbase, runs the coinstake branch when a staking wallet is present
(pwallet = true), and finalises the header time (line 269; UpdateTime
only for proof-of-work blocks).  Returns the template (none on
coinstake failure) and the final pfPoSCancel flag. -/
def CreateNewBlock (C : CNBCtx) (pwallet : Bool) : Option BlockM × Bool :=
  let sel := addPackageTxs (selCtxOf C)
  let mempoolTxs := selectedTxs C sel
  if pwallet then
    -- proof-of-stake branch (miner.cpp lines 225-253)
    let txTime0 := maskedTime C
    let nSearchTime := txTime0
    if nSearchTime > C.lastCoinStakeSearchTime then
      match C.createCoinStake txTime0 with
      | some txCoinStake =>
        if txCoinStake.nTime ≥ C.medianTimePast + 1 then
          (some (posBlockOf C txCoinStake), false)
        else (none, true)
      | none => (none, true)
    else (none, true)
  else
    -- proof-of-work branch: coinbase pays fees plus subsidy; the header
    -- time is line 269 followed by UpdateTime's recurrence
    let coinbase : BlockTxM := ⟨C.adjTime, [⟨sel.nFees + C.blockSubsidy, false⟩]⟩
    let vtx := coinbase :: mempoolTxs
    let nTime1 := max (C.medianTimePast + 1) (getMaxTransactionTime vtx)
    let nTime2 := max nTime1 (max (C.medianTimePast + 1) C.adjTime)
    (some ⟨vtx, nTime2, C.powBits, false⟩, false)

/- ===================== Well-formedness and topological order ===================== -/

/-- A well-formed mempool snapshot: entry ids are distinct, and every
listed ancestor id resolves to a pool entry with strictly smaller
ancestor count whose own ancestors are contained in the host's
ancestor set (the closure the real mempool maintains). -/
def poolWF (pool : List MemEntry) : Prop :=
  (pool.map (fun e => e.id)).Nodup ∧
  ∀ e ∈ pool, ∀ aid ∈ e.ancestors,
    ∃ a, a ∈ pool ∧ a.id = aid ∧ a.countWithAncestors < e.countWithAncestors ∧
      ∀ bid ∈ a.ancestors, bid ∈ e.ancestors

/-- Topological validity of a template id list relative to the pool,
given the ids already placed: every listed ancestor of each transaction
occurs strictly earlier. -/
def topoOKFrom (pool : List MemEntry) : List Nat → List Nat → Prop
  | _, [] => True
  | done, x :: rest =>
      (∀ e ∈ pool, e.id = x → ∀ aid ∈ e.ancestors, aid ∈ done) ∧
      topoOKFrom pool (done ++ [x]) rest

/-- The selector loop invariant: the template built so far is
topologically ordered, and every entry reachable from the state lives
in the pool snapshot. -/
def SelInv (C : SelCtx) (st : SelState) : Prop :=
  topoOKFrom C.pool [] st.blockTxs ∧
  (∀ e ∈ st.mi, e ∈ C.pool) ∧
  (∀ m ∈ st.mapModifiedTx, m.entry ∈ C.pool)

/- ===================== Concrete instances for the miner claims ===================== -/

/-- A mempool entry whose ancestor fee equals the fee floor exactly. -/
def e5W : MemEntry := ⟨1, 0, false, true, 250, 250, 250, 1000, 4, 250, 250, 4, 1, [], []⟩

/-- Selector context with blockMinFeeRate 1000 so that the floor for
`e5W` is exactly its package fee. -/
def C5ctxW : SelCtx := ⟨[e5W], 8000, 1000, false, 100, 100, sortByCount⟩

/-- An entry priced strictly below the fee floor. -/
def e5loW : MemEntry := ⟨1, 0, false, true, 100, 100, 250, 1000, 4, 250, 100, 4, 1, [], []⟩

/-- Selector context for the below-floor early exit. -/
def C5loCtxW : SelCtx := ⟨[e5loW], 8000, 1000, false, 100, 100, sortByCount⟩

/-- The selector state with the resetBlock accumulators, an exhausted
walk and nothing added: what `select` leaves after advancing past the
only entry. -/
def stEmptyW : SelState := ⟨[], 4000, 400, 0, 0, [], [], 0, []⟩

/-- The state after the selector accepted `e5W`. -/
def C6stW : SelState := ⟨[1], 5000, 404, 1, 250, [], [], 0, []⟩

/-- A small first entry the selector accepts, lifting the block weight
above nBlockMaxWeight - 4000. -/
def aEntryW : MemEntry := ⟨1, 0, false, true, 0, 0, 100, 500, 0, 100, 0, 0, 1, [], []⟩

/-- A final small entry the selector can still accept. -/
def zEntryW : MemEntry := ⟨1003, 0, false, true, 0, 0, 50, 200, 0, 50, 0, 0, 1, [], []⟩

/-- An entry whose package always fails TestPackage at weight 4500 with
an 8000 weight budget. -/
def failEntryW (i : Nat) : MemEntry := ⟨i, 0, false, true, 0, 0, 1000, 4000, 0, 1000, 0, 0, 1, [], []⟩

/-- 1002 entries: one accepted, 1000 consecutive TestPackage failures,
then one more acceptable entry. -/
def C7poolW : List MemEntry :=
  aEntryW :: ((List.range 1000).map (fun i => failEntryW (i + 2)) ++ [zEntryW])

/-- Selector context for the consecutive-failure scenario. -/
def C7ctxW : SelCtx := ⟨C7poolW, 8000, 0, false, 100, 100, sortByCount⟩

/-- A single failing entry, for the failure-bookkeeping witness. -/
def failOneW : MemEntry := failEntryW 2

/-- Selector context holding only `failOneW`. -/
def C7oneCtxW : SelCtx := ⟨[failOneW], 8000, 0, false, 100, 100, sortByCount⟩

/-- The state after `failOneW` failed TestPackage once. -/
def C7oneStW : SelState := ⟨[], 4000, 400, 0, 0, [], [], 1, []⟩

/-- A parent entry with ancestor count 1. -/
def parent8W : MemEntry := ⟨1, 0, false, true, 10, 10, 100, 400, 1, 100, 10, 1, 1, [], [2]⟩

/-- A child entry of `parent8W` with ancestor count 2. -/
def child8W : MemEntry := ⟨2, 0, false, true, 30, 30, 100, 400, 1, 200, 40, 2, 2, [1], []⟩

/-- A two-entry pool: child first in ancestor-score order. -/
def C8poolW : List MemEntry := [child8W, parent8W]

/-- Selector context for the topological-order witness. -/
def C8ctxW : SelCtx := ⟨C8poolW, 8000, 0, false, 100, 100, sortByCount⟩

/-- Two distinct entries with equal ancestor count, for the stability
counterexample. -/
def s8aW : MemEntry := ⟨1, 0, false, true, 0, 0, 10, 40, 0, 10, 0, 0, 1, [], []⟩

/-- Second entry of the equal-count pair. -/
def s8bW : MemEntry := ⟨2, 0, false, true, 0, 0, 10, 40, 0, 10, 0, 0, 1, [], []⟩

/-- A mempool entry timestamped later than the coinstake the wallet will
produce. -/
def e9W : MemEntry := ⟨1, 100, false, true, 0, 0, 100, 400, 0, 100, 0, 0, 1, [], []⟩

/-- Assembly context in which the wallet finds a coinstake at masked
time 96 while a selected transaction is timestamped 100. -/
def C9ctxW : CNBCtx := ⟨[e9W], ⟨8000, 0⟩, false, 100, 50, 15, 0, 0x1d00ffff, 0x1d00ffff, 1000,
  false, fun t => some ⟨t, [⟨5, false⟩]⟩, sortByCount⟩

/-- Assembly context in which the coinstake search gate fails
(lastCoinStakeSearchTime not yet passed). -/
def C9failCtxW : CNBCtx := ⟨[e9W], ⟨8000, 0⟩, false, 100, 50, 15, 96, 0x1d00ffff, 0x1d00ffff, 1000,
  false, fun t => some ⟨t, [⟨5, false⟩]⟩, sortByCount⟩
/- ===================== Helper lemmas ===================== -/

theorem insertByKey_perm (key : MemEntry → Nat) (x : MemEntry) :
    ∀ l : List MemEntry, (insertByKey key x l).Perm (x :: l)
  | [] => List.Perm.refl _
  | y :: ys => by
    unfold insertByKey
    split
    · exact List.Perm.refl _
    · exact ((insertByKey_perm key x ys).cons y).trans (List.Perm.swap x y ys)

theorem sortByKey_perm (key : MemEntry → Nat) :
    ∀ l : List MemEntry, (sortByKey key l).Perm l
  | [] => List.Perm.refl _
  | x :: xs => by
    unfold sortByKey
    exact (insertByKey_perm key x (sortByKey key xs)).trans ((sortByKey_perm key xs).cons x)

theorem mem_insertByKey {key : MemEntry → Nat} {x z : MemEntry} {l : List MemEntry} :
    z ∈ insertByKey key x l ↔ z = x ∨ z ∈ l := by
  rw [(insertByKey_perm key x l).mem_iff]
  simp

theorem mem_sortByKey {key : MemEntry → Nat} {z : MemEntry} {l : List MemEntry} :
    z ∈ sortByKey key l ↔ z ∈ l :=
  (sortByKey_perm key l).mem_iff

theorem pairwise_insertByKey (key : MemEntry → Nat) (x : MemEntry) :
    ∀ l : List MemEntry, List.Pairwise (fun a b => key a ≤ key b) l →
      List.Pairwise (fun a b => key a ≤ key b) (insertByKey key x l)
  | [], _ => by simp [insertByKey]
  | y :: ys, h => by
    unfold insertByKey
    rcases List.pairwise_cons.mp h with ⟨hy, hys⟩
    split
    next hxy =>
      refine List.pairwise_cons.mpr ⟨?_, h⟩
      intro z hz
      rcases List.mem_cons.mp hz with rfl | hz
      · exact hxy
      · exact le_trans hxy (hy z hz)
    next hxy =>
      refine List.pairwise_cons.mpr ⟨?_, pairwise_insertByKey key x ys hys⟩
      intro z hz
      rcases mem_insertByKey.mp hz with rfl | hz
      · exact le_of_not_le hxy
      · exact hy z hz

theorem pairwise_sortByKey (key : MemEntry → Nat) :
    ∀ l : List MemEntry, List.Pairwise (fun a b => key a ≤ key b) (sortByKey key l)
  | [] => by simp [sortByKey]
  | x :: xs => pairwise_insertByKey key x _ (pairwise_sortByKey key xs)

theorem sortByCount_spec (l : List MemEntry) : SortForBlockSpec l (sortByCount l) :=
  ⟨sortByKey_perm _ l, pairwise_sortByKey _ l⟩

theorem bestMod_mem : ∀ {mm : List ModEntry} {m : ModEntry}, bestMod mm = some m → m ∈ mm
  | [], _, h => by simp [bestMod] at h
  | x :: xs, m, h => by
    unfold bestMod at h
    cases hb : bestMod xs with
    | none => rw [hb] at h; injection h with h; exact h ▸ List.mem_cons_self x xs
    | some b =>
      rw [hb] at h
      have h2 : (if modEntryBetter b x = true then some b else some x) = some m := h
      split at h2
      · injection h2 with h2; exact h2 ▸ List.mem_cons_of_mem x (bestMod_mem hb)
      · injection h2 with h2; exact h2 ▸ List.mem_cons_self x xs

theorem foldl_preserve {α β : Type} (P : β → Prop) (f : β → α → β) :
    ∀ (l : List α) (init : β), P init → (∀ acc x, x ∈ l → P acc → P (f acc x)) →
      P (l.foldl f init)
  | [], init, h0, _ => h0
  | x :: xs, init, h0, hstep => by
    simp only [List.foldl_cons]
    exact foldl_preserve P f xs (f init x) (hstep init x (List.mem_cons_self x xs) h0)
      (fun acc y hy => hstep acc y (List.mem_cons_of_mem x hy))

theorem pool_id_inj {pool : List MemEntry} (hnd : (pool.map (fun e => e.id)).Nodup) :
    ∀ {a b : MemEntry}, a ∈ pool → b ∈ pool → a.id = b.id → a = b := by
  induction pool with
  | nil => intro a b ha; simp at ha
  | cons x xs ih =>
    simp only [List.map_cons, List.nodup_cons] at hnd
    intro a b ha hb hab
    rcases List.mem_cons.mp ha with ha1 | ha1
    · rcases List.mem_cons.mp hb with hb1 | hb1
      · rw [ha1, hb1]
      · subst ha1
        exact (hnd.1 (List.mem_map.mpr ⟨b, hb1, hab.symm⟩)).elim
    · rcases List.mem_cons.mp hb with hb1 | hb1
      · subst hb1
        exact (hnd.1 (List.mem_map.mpr ⟨a, ha1, hab⟩)).elim
      · exact ih hnd.2 ha1 hb1 hab

theorem find?_of_mem {pool : List MemEntry} (hnd : (pool.map (fun e => e.id)).Nodup) :
    ∀ {e : MemEntry}, e ∈ pool → pool.find? (fun x => x.id = e.id) = some e := by
  induction pool with
  | nil => intro e he; simp at he
  | cons x xs ih =>
    simp only [List.map_cons, List.nodup_cons] at hnd
    intro e he
    rcases List.mem_cons.mp he with rfl | he
    · simp [List.find?]
    · rw [List.find?_cons]
      split
      next hx =>
        have : x.id = e.id := by simpa using hx
        exact absurd (List.mem_map.mpr ⟨e, he, this.symm⟩) hnd.1
      next => exact ih hnd.2 he

theorem entriesOf_mem {pool : List MemEntry} {ids : List Nat} {e : MemEntry}
    (h : e ∈ entriesOf pool ids) : e ∈ pool ∧ e.id ∈ ids := by
  unfold entriesOf at h
  rcases List.mem_filterMap.mp h with ⟨i, hi, hf⟩
  have hm := List.mem_of_find?_eq_some hf
  have hp : e.id = i := by simpa using List.find?_some hf
  exact ⟨hm, hp ▸ hi⟩

theorem entriesOf_complete {pool : List MemEntry} (hnd : (pool.map (fun e => e.id)).Nodup)
    {ids : List Nat} {a : MemEntry} (ha : a ∈ pool) (hid : a.id ∈ ids) :
    a ∈ entriesOf pool ids := by
  unfold entriesOf
  exact List.mem_filterMap.mpr ⟨a.id, hid, find?_of_mem hnd ha⟩

theorem topoOKFrom_append (pool : List MemEntry) :
    ∀ (xs ys d : List Nat), topoOKFrom pool d (xs ++ ys) ↔
      (topoOKFrom pool d xs ∧ topoOKFrom pool (d ++ xs) ys)
  | [], ys, d => by simp [topoOKFrom]
  | x :: xs, ys, d => by
    show ((∀ e ∈ pool, e.id = x → ∀ aid ∈ e.ancestors, aid ∈ d) ∧
        topoOKFrom pool (d ++ [x]) (xs ++ ys)) ↔
      (((∀ e ∈ pool, e.id = x → ∀ aid ∈ e.ancestors, aid ∈ d) ∧
        topoOKFrom pool (d ++ [x]) xs) ∧ topoOKFrom pool (d ++ x :: xs) ys)
    rw [topoOKFrom_append pool xs ys (d ++ [x])]
    have hdx : d ++ [x] ++ xs = d ++ x :: xs := by simp
    rw [hdx, and_assoc]

theorem topoOKFrom_mono (pool : List MemEntry) :
    ∀ (l d d2 : List Nat), (∀ i ∈ d, i ∈ d2) → topoOKFrom pool d l → topoOKFrom pool d2 l
  | [], _, _, _, _ => trivial
  | x :: xs, d, d2, hsub, h => by
    simp only [topoOKFrom] at h ⊢
    refine ⟨fun e he heid aid haid => hsub aid (h.1 e he heid aid haid), ?_⟩
    refine topoOKFrom_mono pool xs (d ++ [x]) (d2 ++ [x]) ?_ h.2
    intro i hi
    rcases List.mem_append.mp hi with hi | hi
    · exact List.mem_append.mpr (Or.inl (hsub i hi))
    · exact List.mem_append.mpr (Or.inr hi)

theorem topoOKFrom_of_sorted (pool : List MemEntry) (hnd : (pool.map (fun e => e.id)).Nodup) :
    ∀ (sorted : List MemEntry) (done : List Nat),
      (∀ e ∈ sorted, e ∈ pool) →
      (∀ e ∈ sorted, ∀ aid ∈ e.ancestors, aid ∈ done ∨
         ∃ a, a ∈ sorted ∧ a.id = aid ∧ a.countWithAncestors < e.countWithAncestors) →
      List.Pairwise (fun a b => a.countWithAncestors ≤ b.countWithAncestors) sorted →
      topoOKFrom pool done (sorted.map (fun e => e.id))
  | [], done, _, _, _ => trivial
  | x :: rest, done, hmem, hanc, hpw => by
    simp only [List.map_cons, topoOKFrom]
    rcases List.pairwise_cons.mp hpw with ⟨hx, hrest⟩
    constructor
    · intro e he heid aid haid
      have hex : e = x := pool_id_inj hnd he (hmem x (List.mem_cons_self x rest)) heid
      subst hex
      rcases hanc e (List.mem_cons_self e rest) aid haid with hd | ⟨a, hamem, haid2, hcnt⟩
      · exact hd
      · rcases List.mem_cons.mp hamem with rfl | hamem
        · exact absurd hcnt (lt_irrefl _)
        · exact absurd hcnt (not_lt.mpr (hx a hamem))
    · refine topoOKFrom_of_sorted pool hnd rest (done ++ [x.id])
        (fun e he => hmem e (List.mem_cons_of_mem x he)) ?_ hrest
      intro e he aid haid
      rcases hanc e (List.mem_cons_of_mem x he) aid haid with hd | ⟨a, hamem, haid2, hcnt⟩
      · exact Or.inl (List.mem_append.mpr (Or.inl hd))
      · rcases List.mem_cons.mp hamem with rfl | hamem
        · exact Or.inl (List.mem_append.mpr (Or.inr (by simp [haid2])))
        · exact Or.inr ⟨a, hamem, haid2, hcnt⟩

theorem select_fields {st : SelState} {c : Cand} {st1 : SelState}
    (h : select st = some (c, st1)) :
    st1.blockTxs = st.blockTxs ∧ st1.nBlockWeight = st.nBlockWeight ∧
    st1.nBlockSigOpsCost = st.nBlockSigOpsCost ∧ st1.mapModifiedTx = st.mapModifiedTx ∧
    st1.nConsecutiveFailed = st.nConsecutiveFailed ∧ st1.failedTx = st.failedTx ∧
    (∀ e ∈ st1.mi, e ∈ st.mi) := by
  unfold select at h
  cases hmi : st.mi with
  | nil =>
    rw [hmi] at h
    cases hb : bestMod st.mapModifiedTx with
    | none => rw [hb] at h; exact absurd h (by simp)
    | some m =>
      rw [hb] at h
      have h3 : some ((⟨m.entry, true, m.nSizeWithAncestors, m.nModFeesWithAncestors,
          m.nSigOpCostWithAncestors⟩ : Cand), st) = some (c, st1) := h
      simp only [Option.some.injEq, Prod.mk.injEq] at h3
      obtain ⟨-, hst⟩ := h3
      subst hst
      exact ⟨rfl, rfl, rfl, rfl, rfl, rfl, fun a ha => by rw [hmi] at ha; exact ha⟩
  | cons e rest =>
    rw [hmi] at h
    cases hb : bestMod st.mapModifiedTx with
    | none =>
      rw [hb] at h
      have h3 : some ((⟨e, false, e.sizeWithAncestors, e.modFeesWithAncestors,
          e.sigOpCostWithAncestors⟩ : Cand), { st with mi := rest }) = some (c, st1) := h
      simp only [Option.some.injEq, Prod.mk.injEq] at h3
      obtain ⟨-, hst⟩ := h3
      subst hst
      exact ⟨rfl, rfl, rfl, rfl, rfl, rfl, fun a ha => List.mem_cons_of_mem e ha⟩
    | some m =>
      rw [hb] at h
      have h3 : (if modEntryBetter m (initModEntry e) = true then
          some ((⟨m.entry, true, m.nSizeWithAncestors, m.nModFeesWithAncestors,
            m.nSigOpCostWithAncestors⟩ : Cand), st)
        else some ((⟨e, false, e.sizeWithAncestors, e.modFeesWithAncestors,
            e.sigOpCostWithAncestors⟩ : Cand), { st with mi := rest })) = some (c, st1) := h
      split at h3
      · simp only [Option.some.injEq, Prod.mk.injEq] at h3
        obtain ⟨-, hst⟩ := h3
        subst hst
        exact ⟨rfl, rfl, rfl, rfl, rfl, rfl, fun a ha => by rw [hmi] at ha; exact ha⟩
      · simp only [Option.some.injEq, Prod.mk.injEq] at h3
        obtain ⟨-, hst⟩ := h3
        subst hst
        exact ⟨rfl, rfl, rfl, rfl, rfl, rfl, fun a ha => List.mem_cons_of_mem e ha⟩

theorem select_entry_mem {C : SelCtx} {st : SelState} {c : Cand} {st1 : SelState}
    (hmi : ∀ e ∈ st.mi, e ∈ C.pool) (hmm : ∀ m ∈ st.mapModifiedTx, m.entry ∈ C.pool)
    (h : select st = some (c, st1)) : c.entry ∈ C.pool := by
  unfold select at h
  cases hmi2 : st.mi with
  | nil =>
    rw [hmi2] at h
    cases hb : bestMod st.mapModifiedTx with
    | none => rw [hb] at h; exact absurd h (by simp)
    | some m =>
      rw [hb] at h
      have h3 : some ((⟨m.entry, true, m.nSizeWithAncestors, m.nModFeesWithAncestors,
          m.nSigOpCostWithAncestors⟩ : Cand), st) = some (c, st1) := h
      simp only [Option.some.injEq, Prod.mk.injEq] at h3
      obtain ⟨hc, -⟩ := h3
      rw [← hc]
      exact hmm m (bestMod_mem hb)
  | cons e rest =>
    have hein : e ∈ st.mi := by rw [hmi2]; exact List.mem_cons_self e rest
    rw [hmi2] at h
    cases hb : bestMod st.mapModifiedTx with
    | none =>
      rw [hb] at h
      have h3 : some ((⟨e, false, e.sizeWithAncestors, e.modFeesWithAncestors,
          e.sigOpCostWithAncestors⟩ : Cand), { st with mi := rest }) = some (c, st1) := h
      simp only [Option.some.injEq, Prod.mk.injEq] at h3
      obtain ⟨hc, -⟩ := h3
      rw [← hc]
      exact hmi e hein
    | some m =>
      rw [hb] at h
      have h3 : (if modEntryBetter m (initModEntry e) = true then
          some ((⟨m.entry, true, m.nSizeWithAncestors, m.nModFeesWithAncestors,
            m.nSigOpCostWithAncestors⟩ : Cand), st)
        else some ((⟨e, false, e.sizeWithAncestors, e.modFeesWithAncestors,
            e.sigOpCostWithAncestors⟩ : Cand), { st with mi := rest })) = some (c, st1) := h
      split at h3
      · simp only [Option.some.injEq, Prod.mk.injEq] at h3
        obtain ⟨hc, -⟩ := h3
        rw [← hc]
        exact hmm m (bestMod_mem hb)
      · simp only [Option.some.injEq, Prod.mk.injEq] at h3
        obtain ⟨hc, -⟩ := h3
        rw [← hc]
        exact hmi e hein

theorem addLoop_fields : ∀ (l : List MemEntry) (st : SelState),
    ((l.foldl addLoopStep st).blockTxs = st.blockTxs ++ l.map (fun e => e.id)) ∧
    ((l.foldl addLoopStep st).mi = st.mi) ∧
    (∀ m ∈ (l.foldl addLoopStep st).mapModifiedTx, m ∈ st.mapModifiedTx)
  | [], st => by simp
  | e :: l, st => by
    simp only [List.foldl_cons, List.map_cons]
    obtain ⟨h1, h2, h3⟩ := addLoop_fields l (addLoopStep st e)
    refine ⟨?_, ?_, ?_⟩
    · rw [h1]
      simp [addLoopStep, addToBlock, List.append_assoc]
    · rw [h2]
      rfl
    · intro m hm
      have hm2 := h3 m hm
      simp only [addLoopStep, addToBlock] at hm2
      exact List.mem_of_mem_filter hm2

theorem updateForParentInclusion_entry (it : MemEntry) (m : ModEntry) :
    (updateForParentInclusion it m).entry = m.entry := rfl

theorem updatePackagesForAdded_mem {pool added : List MemEntry} {mm : List ModEntry}
    (hmm : ∀ m ∈ mm, m.entry ∈ pool) :
    ∀ m ∈ updatePackagesForAdded pool added mm, m.entry ∈ pool := by
  unfold updatePackagesForAdded
  refine foldl_preserve (fun acc => ∀ m ∈ acc, m.entry ∈ pool) _ added mm hmm ?_
  intro acc it hit hacc
  refine foldl_preserve (fun acc2 => ∀ m ∈ acc2, m.entry ∈ pool) _ _ acc hacc ?_
  intro acc2 desc hdesc hacc2
  split
  · exact hacc2
  · intro m hm
    rcases List.mem_map.mp hm with ⟨m0, hm0, hfm⟩
    have hent : m.entry = m0.entry := by
      rw [← hfm]
      split
      · exact updateForParentInclusion_entry it m0
      · rfl
    rw [hent]
    by_cases hmem : memMod acc2 desc.id = true
    · rw [if_pos hmem] at hm0
      exact hacc2 m0 hm0
    · rw [if_neg hmem] at hm0
      rcases List.mem_cons.mp hm0 with rfl | hm0
      · exact (entriesOf_mem hdesc).1
      · exact hacc2 m0 hm0

theorem mem_sortById {z : MemEntry} {l : List MemEntry} : z ∈ sortById l ↔ z ∈ l := by
  unfold sortById
  exact mem_sortByKey

theorem packageOf_mem {C : SelCtx} {st1 : SelState} {iter : MemEntry} {x : MemEntry}
    (hx : x ∈ packageOf C st1 iter) :
    x = iter ∨ (x ∈ C.pool ∧ x.id ∈ iter.ancestors ∧ x.id ∉ st1.blockTxs) := by
  unfold packageOf at hx
  rw [mem_sortById] at hx
  rcases List.mem_append.mp hx with hx | hx
  · rcases List.mem_filter.mp hx with ⟨hx1, hx2⟩
    have hx3 := entriesOf_mem hx1
    refine Or.inr ⟨hx3.1, hx3.2, ?_⟩
    simpa using hx2
  · exact Or.inl (by simpa using hx)

theorem packageOf_complete {C : SelCtx} {st1 : SelState} {iter : MemEntry}
    (hnd : (C.pool.map (fun e => e.id)).Nodup)
    {a : MemEntry} (ha : a ∈ C.pool) (hid : a.id ∈ iter.ancestors)
    (hnb : a.id ∉ st1.blockTxs) : a ∈ packageOf C st1 iter := by
  unfold packageOf
  rw [mem_sortById]
  refine List.mem_append.mpr (Or.inl ?_)
  refine List.mem_filter.mpr ⟨entriesOf_complete hnd ha hid, ?_⟩
  simpa using hnb

theorem packageOf_anc {C : SelCtx} {st1 : SelState} {iter : MemEntry}
    (hwf : poolWF C.pool) (hiter : iter ∈ C.pool) :
    ∀ e ∈ packageOf C st1 iter, e ∈ C.pool ∧
      ∀ aid ∈ e.ancestors, aid ∈ st1.blockTxs ∨
        ∃ a, a ∈ packageOf C st1 iter ∧ a.id = aid ∧
          a.countWithAncestors < e.countWithAncestors := by
  obtain ⟨hnd, hattr⟩ := hwf
  intro e he
  rcases packageOf_mem he with rfl | ⟨hepool, heanc, -⟩
  · refine ⟨hiter, fun aid haid => ?_⟩
    obtain ⟨a, hapool, haid2, hcnt, -⟩ := hattr e hiter aid haid
    by_cases hb : aid ∈ st1.blockTxs
    · exact Or.inl hb
    · exact Or.inr ⟨a, packageOf_complete hnd hapool (haid2 ▸ haid) (haid2 ▸ hb), haid2, hcnt⟩
  · refine ⟨hepool, fun aid haid => ?_⟩
    obtain ⟨a0, ha0pool, ha0id, -, hsub⟩ := hattr iter hiter e.id heanc
    have ha0e : a0 = e := pool_id_inj hnd ha0pool hepool ha0id
    subst ha0e
    have haid3 : aid ∈ iter.ancestors := hsub aid haid
    obtain ⟨a, hapool, haid2, hcnt, -⟩ := hattr a0 hepool aid haid
    by_cases hb : aid ∈ st1.blockTxs
    · exact Or.inl hb
    · exact Or.inr ⟨a, packageOf_complete hnd hapool (haid2 ▸ haid3) (haid2 ▸ hb), haid2, hcnt⟩

theorem accepted_topo {C : SelCtx}
    (hsort : ∀ l, SortForBlockSpec l (C.sortFn l)) (hwf : poolWF C.pool)
    {st1 : SelState} (htopo : topoOKFrom C.pool [] st1.blockTxs)
    {iter : MemEntry} (hiter : iter ∈ C.pool) :
    topoOKFrom C.pool []
      (st1.blockTxs ++ (C.sortFn (packageOf C st1 iter)).map (fun e => e.id)) := by
  rw [topoOKFrom_append]
  refine ⟨htopo, ?_⟩
  have hperm := (hsort (packageOf C st1 iter)).1
  have hpw := (hsort (packageOf C st1 iter)).2
  have hmain := topoOKFrom_of_sorted C.pool hwf.1 (C.sortFn (packageOf C st1 iter)) st1.blockTxs
    (fun e he => (packageOf_anc hwf hiter e (hperm.mem_iff.mp he)).1)
    (fun e he aid haid => by
      rcases (packageOf_anc hwf hiter e (hperm.mem_iff.mp he)).2 aid haid with hd | ⟨a, hap, haid2, hcnt⟩
      · exact Or.inl hd
      · exact Or.inr ⟨a, hperm.mem_iff.mpr hap, haid2, hcnt⟩)
    hpw
  simpa using hmain

theorem markFailed_fields (st : SelState) (c : Cand) :
    (markFailed st c).blockTxs = st.blockTxs ∧ (markFailed st c).mi = st.mi ∧
    (markFailed st c).nBlockWeight = st.nBlockWeight ∧
    (markFailed st c).nBlockSigOpsCost = st.nBlockSigOpsCost ∧
    (markFailed st c).nConsecutiveFailed = st.nConsecutiveFailed ∧
    (∀ m ∈ (markFailed st c).mapModifiedTx, m ∈ st.mapModifiedTx) := by
  unfold markFailed
  split
  · exact ⟨rfl, rfl, rfl, rfl, rfl, fun m hm => List.mem_of_mem_filter hm⟩
  · exact ⟨rfl, rfl, rfl, rfl, rfl, fun m hm => hm⟩

theorem failState_fields (st : SelState) (c : Cand) :
    (failState st c).blockTxs = st.blockTxs ∧ (failState st c).mi = st.mi ∧
    (failState st c).nBlockWeight = st.nBlockWeight ∧
    (failState st c).nBlockSigOpsCost = st.nBlockSigOpsCost ∧
    (failState st c).nConsecutiveFailed = st.nConsecutiveFailed + 1 ∧
    (∀ m ∈ (failState st c).mapModifiedTx, m ∈ st.mapModifiedTx) := by
  obtain ⟨h1, h2, h3, h4, h5, h6⟩ := markFailed_fields st c
  unfold failState
  exact ⟨h1, h2, h3, h4, by rw [h5], h6⟩

theorem selInv_of_fields {C : SelCtx} {st st2 : SelState} (hinv : SelInv C st)
    (h1 : st2.blockTxs = st.blockTxs) (h2 : ∀ e ∈ st2.mi, e ∈ st.mi)
    (h3 : ∀ m ∈ st2.mapModifiedTx, m ∈ st.mapModifiedTx) : SelInv C st2 := by
  obtain ⟨htopo, hmi, hmm⟩ := hinv
  exact ⟨h1 ▸ htopo, fun e he => hmi e (h2 e he), fun m hm => hmm m (h3 m hm)⟩

theorem acceptState_inv {C : SelCtx}
    (hsort : ∀ l, SortForBlockSpec l (C.sortFn l)) (hwf : poolWF C.pool)
    {st1 : SelState} (hinv1 : SelInv C st1) {c : Cand} (hce : c.entry ∈ C.pool) :
    SelInv C (acceptState C st1 c) := by
  obtain ⟨htopo, hmi, hmm⟩ := hinv1
  obtain ⟨ha1, ha2, ha3⟩ := addLoop_fields (C.sortFn (packageOf C st1 c.entry))
    { st1 with nConsecutiveFailed := 0 }
  refine ⟨?_, ?_, ?_⟩
  · show topoOKFrom C.pool [] ((C.sortFn (packageOf C st1 c.entry)).foldl addLoopStep
      { st1 with nConsecutiveFailed := 0 }).blockTxs
    rw [ha1]
    exact accepted_topo hsort hwf htopo hce
  · show ∀ e ∈ ((C.sortFn (packageOf C st1 c.entry)).foldl addLoopStep
      { st1 with nConsecutiveFailed := 0 }).mi, e ∈ C.pool
    rw [ha2]
    exact hmi
  · show ∀ m ∈ updatePackagesForAdded C.pool (packageOf C st1 c.entry) _, m.entry ∈ C.pool
    exact updatePackagesForAdded_mem (fun m hm => hmm m (ha3 m hm))

theorem evalCandidate_inv {C : SelCtx}
    (hsort : ∀ l, SortForBlockSpec l (C.sortFn l)) (hwf : poolWF C.pool)
    {st : SelState} (hinv : SelInv C st) :
    ∀ st2 ev, (evalCandidate C st = .done st2 ev ∨ evalCandidate C st = .cont st2 ev) →
      SelInv C st2 := by
  intro st2 ev h
  have hgoal : ∀ res : StepRes, evalCandidate C st = res →
      (res = .done st2 ev ∨ res = .cont st2 ev) → SelInv C st2 := by
    intro res hres hcase
    unfold evalCandidate at hres
    cases hsel : select st with
    | none =>
      rw [hsel] at hres
      subst hres
      rcases hcase with h | h
      · injection h with h1 h2
        exact h1 ▸ hinv
      · exact StepRes.noConfusion h
    | some p =>
      obtain ⟨c, st1⟩ := p
      have hf := select_fields hsel
      have hinv1 : SelInv C st1 := selInv_of_fields hinv hf.1 hf.2.2.2.2.2.2
        (fun m hm => hf.2.2.2.1 ▸ hm)
      have hce : c.entry ∈ C.pool := select_entry_mem hinv.2.1 hinv.2.2 hsel
      rw [hsel] at hres
      have hres2 : (if c.pkgFees < feeRateGetFee C.blockMinFeeRate c.pkgSize then
          StepRes.done st1 (.floorExit c.pkgSize c.pkgFees c.pkgSigOps)
        else if ¬ TestPackage C.nBlockMaxWeight st1.nBlockWeight st1.nBlockSigOpsCost
                    c.pkgSize c.pkgSigOps then
          if (failState st1 c).nConsecutiveFailed > MAX_CONSECUTIVE_FAILURES ∧
              (failState st1 c).nBlockWeight > C.nBlockMaxWeight - 4000 then
            StepRes.done (failState st1 c) (.pkgFailed c.pkgSize c.pkgFees c.pkgSigOps)
          else
            StepRes.cont (failState st1 c) (.pkgFailed c.pkgSize c.pkgFees c.pkgSigOps)
        else if ¬ TestPackageTransactions C (packageOf C st1 c.entry) then
          StepRes.cont (markFailed st1 c) (.txsFailed c.pkgSize c.pkgFees c.pkgSigOps)
        else
          StepRes.cont (acceptState C st1 c) (.accepted c.pkgSize c.pkgFees c.pkgSigOps
            ((C.sortFn (packageOf C st1 c.entry)).map (fun e => e.id)))) = res := hres
    -- now case-split the if chain
      have hfail : SelInv C (failState st1 c) := by
        obtain ⟨g1, g2, g3, g4, g5, g6⟩ := failState_fields st1 c
        exact selInv_of_fields hinv1 g1 (fun e he => g2 ▸ he) g6
      have hmark : SelInv C (markFailed st1 c) := by
        obtain ⟨g1, g2, g3, g4, g5, g6⟩ := markFailed_fields st1 c
        exact selInv_of_fields hinv1 g1 (fun e he => g2 ▸ he) g6
      have hacc : SelInv C (acceptState C st1 c) := acceptState_inv hsort hwf hinv1 hce
      split at hres2
      · subst hres2
        rcases hcase with h | h
        · injection h with h1 h2; exact h1 ▸ hinv1
        · exact StepRes.noConfusion h
      · split at hres2
        · split at hres2
          · subst hres2
            rcases hcase with h | h
            · injection h with h1 h2; exact h1 ▸ hfail
            · exact StepRes.noConfusion h
          · subst hres2
            rcases hcase with h | h
            · exact StepRes.noConfusion h
            · injection h with h1 h2; exact h1 ▸ hfail
        · split at hres2
          · subst hres2
            rcases hcase with h | h
            · exact StepRes.noConfusion h
            · injection h with h1 h2; exact h1 ▸ hmark
          · subst hres2
            rcases hcase with h | h
            · exact StepRes.noConfusion h
            · injection h with h1 h2; exact h1 ▸ hacc
  exact hgoal (evalCandidate C st) rfl (by
    rcases h with h | h
    · exact Or.inl h
    · exact Or.inr h)

theorem selStep_inv {C : SelCtx}
    (hsort : ∀ l, SortForBlockSpec l (C.sortFn l)) (hwf : poolWF C.pool)
    {st : SelState} (hinv : SelInv C st) :
    ∀ st2 ev, (selStep C st = .done st2 ev ∨ selStep C st = .cont st2 ev) →
      SelInv C st2 := by
  intro st2 ev h
  unfold selStep at h
  split at h
  · rcases h with h | h
    · injection h with h1 h2; exact h1 ▸ hinv
    · exact StepRes.noConfusion h
  · rcases hmi : st.mi with _ | ⟨e, rest⟩
    · rw [hmi] at h
      exact evalCandidate_inv hsort hwf hinv st2 ev h
    · rw [hmi] at h
      rcases h with h | h
      · have h2 : (if (memMod st.mapModifiedTx e.id || st.blockTxs.contains e.id ||
              st.failedTx.contains e.id) = true then
            StepRes.cont { st with mi := rest } .skipped
          else evalCandidate C st) = StepRes.done st2 ev := h
        split at h2
        · exact StepRes.noConfusion h2
        · exact evalCandidate_inv hsort hwf hinv st2 ev (Or.inl h2)
      · have h2 : (if (memMod st.mapModifiedTx e.id || st.blockTxs.contains e.id ||
              st.failedTx.contains e.id) = true then
            StepRes.cont { st with mi := rest } .skipped
          else evalCandidate C st) = StepRes.cont st2 ev := h
        split at h2
        · injection h2 with h1 hev
          refine h1 ▸ selInv_of_fields hinv rfl (fun a ha => ?_) (fun m hm => hm)
          rw [hmi]
          exact List.mem_cons_of_mem e ha
        · exact evalCandidate_inv hsort hwf hinv st2 ev (Or.inr h2)

theorem selLoop_inv {C : SelCtx}
    (hsort : ∀ l, SortForBlockSpec l (C.sortFn l)) (hwf : poolWF C.pool) :
    ∀ (fuel : Nat) (st : SelState), SelInv C st → SelInv C (selLoop C fuel st)
  | 0, st, hinv => hinv
  | fuel + 1, st, hinv => by
    unfold selLoop
    cases hstep : selStep C st with
    | done st2 ev => exact selStep_inv hsort hwf hinv st2 ev (Or.inl hstep)
    | cont st2 ev =>
      exact selLoop_inv hsort hwf fuel st2 (selStep_inv hsort hwf hinv st2 ev (Or.inr hstep))

theorem addLoop_counter : ∀ (l : List MemEntry) (st : SelState),
    (l.foldl addLoopStep st).nConsecutiveFailed = st.nConsecutiveFailed
  | [], _ => rfl
  | e :: l, st => by
    simp only [List.foldl_cons]
    rw [addLoop_counter l (addLoopStep st e)]
    rfl

theorem testPackage_true_iff (maxW w s sz sg : Nat) :
    TestPackage maxW w s sz sg = true ↔
      w + witnessScaleFactor * sz < maxW ∧ s + sg < MAX_BLOCK_SIGOPS_COST := by
  unfold TestPackage
  constructor
  · intro h
    split at h
    · simp at h
    next h1 =>
      split at h
      · simp at h
      next h2 => exact ⟨Nat.lt_of_not_le (fun hle => h1 (hle)), Nat.lt_of_not_le h2⟩
  · rintro ⟨h1, h2⟩
    rw [if_neg (Nat.not_le.mpr h1), if_neg (Nat.not_le.mpr h2)]


/- ===================== Claim theorems: pos.cpp ===================== -/

/-- C1: CheckStakeKernelHash returns true if and only if nTimeTx is at
least blockFromTime, prevoutValue is nonzero, and the kernel proof hash
read as a 256-bit unsigned integer is at most the compact-expanded
target multiplied by prevoutValue (in the 256-bit arithmetic of
arith_uint256); in particular a time violation or a zero value each
reject immediately. -/
theorem checkStakeKernelHash_iff (p : CBlockIndexK) (nBits blockFromTime : Nat)
    (v : Int) (po : COutPoint) (t : Nat) :
    (CheckStakeKernelHash p nBits blockFromTime v po t = true ↔
      (blockFromTime ≤ t ∧ v ≠ 0 ∧
        hashProofOfStake p.nStakeModifier blockFromTime po t ≤ kernelWeightedTarget nBits v)) ∧
    (t < blockFromTime → CheckStakeKernelHash p nBits blockFromTime v po t = false) ∧
    (v = 0 → CheckStakeKernelHash p nBits blockFromTime v po t = false) := by
  unfold CheckStakeKernelHash
  refine ⟨⟨?_, ?_⟩, ?_, ?_⟩
  · intro h
    split at h
    · simp at h
    next hlt =>
      split at h
      · simp at h
      next hv =>
        split at h
        · simp at h
        next hgt => exact ⟨Nat.le_of_not_lt hlt, hv, Nat.le_of_not_lt hgt⟩
  · rintro ⟨h1, h2, h3⟩
    rw [if_neg (Nat.not_lt.mpr h1), if_neg h2, if_neg (Nat.not_lt.mpr h3)]
  · intro h
    rw [if_pos h]
  · intro h
    subst h
    simp

set_option maxRecDepth 1000000 in
/-- C1 witness: at a concrete instance the kernel accepts, and lowering
nTimeTx below blockFromTime rejects. -/
theorem checkStakeKernelHash_iff_witness :
    CheckStakeKernelHash pidxW 0x20ffffff 900 2 poW 1000 = true ∧
    CheckStakeKernelHash pidxW 0x20ffffff 900 2 poW 800 = false := by
  constructor
  · exact (checkStakeKernelHash_iff pidxW 0x20ffffff 900 2 poW 1000).1.mpr
      ⟨by decide, by decide, by decide⟩
  · exact (checkStakeKernelHash_iff pidxW 0x20ffffff 900 2 poW 800).2.1 (by decide)

/-- C2: the kernel proof hash is double SHA-256 over exactly the
concatenation stakeModifier (32 bytes) followed by blockFromTime
(4 bytes little-endian), prevout.hash (32 bytes), prevout.n (4 bytes
little-endian) and nTimeTx (4 bytes little-endian), with the digest
read little-endian. -/
theorem kernelPreimage_layout (m bft : Nat) (po : COutPoint) (t : Nat) :
    kernelPreimage m bft po t =
      ser256 m ++ ser32 bft ++ ser256 po.hash ++ ser32 po.n ++ ser32 t ∧
    hashProofOfStake m bft po t =
      leBytesToNat (sha256 (sha256
        (ser256 m ++ ser32 bft ++ ser256 po.hash ++ ser32 po.n ++ ser32 t))) := by
  constructor
  · simp [kernelPreimage, HashWriter.writeUInt32, HashWriter.writeUInt256, List.append_assoc]
  · simp [hashProofOfStake, HashWriter.getHashBytes, sha256d, kernelPreimage,
      HashWriter.writeUInt32, HashWriter.writeUInt256, List.append_assoc]

/-- C3: the cache-consulting CheckKernel overload returns true only if
the authoritative no-cache path over the view also returns true — a
cache hit that satisfies the target is re-verified through the view
before success. -/
theorem checkKernelCached_implies_view (maturity : Int) (p : CBlockIndexK)
    (nBits t : Nat) (po : COutPoint) (view : COutPoint → Option CoinM)
    (cache : COutPoint → Option CStakeCache)
    (h : CheckKernelCached maturity p nBits t po view cache = true) :
    CheckKernel maturity p nBits t po view = true := by
  unfold CheckKernelCached at h
  cases hc : cache po with
  | none => rw [hc] at h; exact h
  | some stake =>
    rw [hc] at h
    have h2 : (if CheckStakeKernelHash p nBits stake.blockFromTime stake.amount po t = true then
        CheckKernel maturity p nBits t po view else false) = true := h
    by_cases hk : CheckStakeKernelHash p nBits stake.blockFromTime stake.amount po t = true
    · rwa [if_pos hk] at h2
    · rw [if_neg hk] at h2
      exact absurd h2 (by simp)

set_option maxRecDepth 1000000 in
/-- C3 witness: a concrete cache hit that passes also passes the
authoritative path. -/
theorem checkKernelCached_implies_view_witness :
    CheckKernelCached 10 pidxW 0x20ffffff 1000 poW viewW cacheW = true ∧
    CheckKernel 10 pidxW 0x20ffffff 1000 poW viewW = true :=
  have h : CheckKernelCached 10 pidxW 0x20ffffff 1000 poW viewW cacheW = true := by decide
  ⟨h, checkKernelCached_implies_view 10 pidxW 0x20ffffff 1000 poW viewW cacheW h⟩

/-- C4: CheckProofOfStake fails with the stated reject reasons in the
stated order — non-coinstake (plain false), stake-prevout-not-exist,
stake-prevout-not-mature, stake-prevout-not-loaded,
stake-verify-signature-failed, stake-check-kernel-failed — and returns
true otherwise, with the kernel test invoked using blockFromTime =
coinPrev.nTime when nonzero, else the ancestor block time. -/
theorem checkProofOfStake_cases (maturity : Int) (verifySig : CoinM → CTxM → Bool)
    (p : CBlockIndexK) (tx : CTxM) (nBits : Nat)
    (view : COutPoint → Option CoinM) (t : Nat) :
    (¬ tx.isCoinStake = true →
      CheckProofOfStake maturity verifySig p tx nBits view t = .fail) ∧
    (tx.isCoinStake = true → view tx.vin0prevout = none →
      CheckProofOfStake maturity verifySig p tx nBits view t =
        .invalid "stake-prevout-not-exist") ∧
    (∀ c, tx.isCoinStake = true → view tx.vin0prevout = some c →
      p.nHeight + 1 - c.nHeight < maturity →
      CheckProofOfStake maturity verifySig p tx nBits view t =
        .invalid "stake-prevout-not-mature") ∧
    (∀ c, tx.isCoinStake = true → view tx.vin0prevout = some c →
      ¬ (p.nHeight + 1 - c.nHeight < maturity) →
      p.getAncestor c.nHeight = none →
      CheckProofOfStake maturity verifySig p tx nBits view t =
        .invalid "stake-prevout-not-loaded") ∧
    (∀ c bf, tx.isCoinStake = true → view tx.vin0prevout = some c →
      ¬ (p.nHeight + 1 - c.nHeight < maturity) →
      p.getAncestor c.nHeight = some bf →
      ¬ verifySig c tx = true →
      CheckProofOfStake maturity verifySig p tx nBits view t =
        .invalid "stake-verify-signature-failed") ∧
    (∀ c bf, tx.isCoinStake = true → view tx.vin0prevout = some c →
      ¬ (p.nHeight + 1 - c.nHeight < maturity) →
      p.getAncestor c.nHeight = some bf →
      verifySig c tx = true →
      CheckProofOfStake maturity verifySig p tx nBits view t =
        (if CheckStakeKernelHash p nBits (if c.nTime ≠ 0 then c.nTime else bf.nTime)
              c.outValue tx.vin0prevout t
         then .ok else .invalid "stake-check-kernel-failed")) := by
  refine ⟨?_, ?_, ?_, ?_, ?_, ?_⟩
  · intro h
    unfold CheckProofOfStake
    rw [if_pos h]
  · intro h hv
    unfold CheckProofOfStake
    rw [if_neg (by simp [h]), hv]
  · intro c h hv hm
    unfold CheckProofOfStake
    rw [if_neg (by simp [h]), hv]
    simp only [if_pos hm]
  · intro c h hv hm ha
    unfold CheckProofOfStake
    rw [if_neg (by simp [h]), hv]
    simp only [if_neg hm, ha]
  · intro c bf h hv hm ha hs
    unfold CheckProofOfStake
    rw [if_neg (by simp [h]), hv]
    simp only [if_neg hm, ha, if_pos hs]
  · intro c bf h hv hm ha hs
    unfold CheckProofOfStake
    rw [if_neg (by simp [h]), hv]
    simp only [if_neg hm, ha]
    rw [if_neg (by simp [hs])]
    by_cases hk : CheckStakeKernelHash p nBits (if c.nTime ≠ 0 then c.nTime else bf.nTime)
        c.outValue tx.vin0prevout t = true
    · rw [if_neg (not_not_intro hk), if_pos hk]
    · rw [if_pos hk, if_neg hk]

/-- C4 witness: a coinstake whose prevout is missing from the view is
rejected with stake-prevout-not-exist. -/
theorem checkProofOfStake_cases_witness :
    CheckProofOfStake 10 (fun _ _ => true) pidxW ⟨true, poW⟩ 0x20ffffff
      (fun _ => none) 1000 = .invalid "stake-prevout-not-exist" :=
  (checkProofOfStake_cases 10 (fun _ _ => true) pidxW ⟨true, poW⟩ 0x20ffffff
    (fun _ => none) 1000).2.1 rfl rfl

/- ===================== Claim theorems: miner.cpp ===================== -/

set_option maxRecDepth 1000000 in
/-- C5 counterexample: a mempool entry whose package ancestor fee equals
blockMinFeeRate.GetFee(packageSize) exactly IS included in the block,
refuting the claim that such a candidate is excluded. -/
theorem feeFloor_equal_included_cex :
    e5W.modFeesWithAncestors = feeRateGetFee C5ctxW.blockMinFeeRate e5W.sizeWithAncestors ∧
    (addPackageTxs C5ctxW).blockTxs = [e5W.id] := by
  constructor
  · decide
  · decide

/-- C5 (amended): the early-exit fee floor fires exactly when the
chosen candidate's packageFees is strictly below
blockMinFeeRate.GetFee(packageSize) — a candidate paying the floor
exactly passes the check — and the selector returns at that point with
the block state unchanged. -/
theorem feeFloor_exit_iff (C : SelCtx) (c : Cand) (st1 : SelState) :
    (evalChosen C c st1 = .done st1 (.floorExit c.pkgSize c.pkgFees c.pkgSigOps) ↔
      c.pkgFees < feeRateGetFee C.blockMinFeeRate c.pkgSize) ∧
    (∀ st : SelState, select st = some (c, st1) →
      evalCandidate C st = evalChosen C c st1) := by
  constructor
  · constructor
    · intro h
      unfold evalChosen at h
      by_cases hlt : c.pkgFees < feeRateGetFee C.blockMinFeeRate c.pkgSize
      · exact hlt
      · rw [if_neg hlt] at h
        split at h
        · split at h
          · injection h with h1 hev
            exact SelEvent.noConfusion hev
          · exact StepRes.noConfusion h
        · split at h
          · exact StepRes.noConfusion h
          · exact StepRes.noConfusion h
    · intro hlt
      unfold evalChosen
      rw [if_pos hlt]
  · intro st hsel
    unfold evalCandidate
    rw [hsel]

/-- C5 witness: a concrete below-floor candidate makes the selector
return immediately. -/
theorem feeFloor_exit_iff_witness :
    evalChosen C5loCtxW ⟨e5loW, false, 250, 100, 4⟩ stEmptyW =
      .done stEmptyW (.floorExit 250 100 4) ∧
    evalCandidate C5loCtxW (initSelState [e5loW]) =
      evalChosen C5loCtxW ⟨e5loW, false, 250, 100, 4⟩ stEmptyW := by
  constructor
  · exact (feeFloor_exit_iff C5loCtxW ⟨e5loW, false, 250, 100, 4⟩ stEmptyW).1.mpr (by decide)
  · exact (feeFloor_exit_iff C5loCtxW ⟨e5loW, false, 250, 100, 4⟩ stEmptyW).2
      (initSelState [e5loW]) (by decide)

/-- C6: TestPackage rejects a package that would make the block weight
exactly reach nBlockMaxWeight, or the sigop cost exactly reach
MAX_BLOCK_SIGOPS_COST; and for every package the selector accepts,
nBlockWeight + witnessScaleFactor * packageSize < nBlockMaxWeight and
nBlockSigOpsCost + packageSigOpsCost < MAX_BLOCK_SIGOPS_COST hold at
acceptance time. -/
theorem testPackage_bounds :
    (∀ maxW w s sz sg, w + witnessScaleFactor * sz = maxW →
      TestPackage maxW w s sz sg = false) ∧
    (∀ maxW w s sz sg, s + sg = MAX_BLOCK_SIGOPS_COST →
      TestPackage maxW w s sz sg = false) ∧
    (∀ (C : SelCtx) (c : Cand) (st1 st2 : SelState) (sz : Nat) (f : Int) (sg : Nat)
        (ids : List Nat),
      evalChosen C c st1 = .cont st2 (.accepted sz f sg ids) →
      st1.nBlockWeight + witnessScaleFactor * sz < C.nBlockMaxWeight ∧
      st1.nBlockSigOpsCost + sg < MAX_BLOCK_SIGOPS_COST) := by
  refine ⟨?_, ?_, ?_⟩
  · intro maxW w s sz sg h
    unfold TestPackage
    rw [if_pos (Nat.le_of_eq h.symm)]
  · intro maxW w s sz sg h
    unfold TestPackage
    split
    · rfl
    · rw [if_pos (Nat.le_of_eq h.symm)]
  · intro C c st1 st2 sz f sg ids h
    unfold evalChosen at h
    split at h
    · exact StepRes.noConfusion h
    · split at h
      · split at h
        · exact StepRes.noConfusion h
        · injection h with h1 hev
          exact SelEvent.noConfusion hev
      next htp2 =>
        split at h
        · injection h with h1 hev
          exact SelEvent.noConfusion hev
        · injection h with h1 hev
          injection hev with e1 e2 e3 e4
          subst e1
          subst e3
          exact (testPackage_true_iff _ _ _ _ _).mp (not_not.mp htp2)

/-- C6 witness: a boundary package is rejected, and a concretely
accepted package satisfies the strict bounds. -/
theorem testPackage_bounds_witness :
    TestPackage 8000 4000 400 1000 0 = false ∧
    (stEmptyW.nBlockWeight + witnessScaleFactor * 250 < C5ctxW.nBlockMaxWeight ∧
     stEmptyW.nBlockSigOpsCost + 4 < MAX_BLOCK_SIGOPS_COST) := by
  constructor
  · exact testPackage_bounds.1 8000 4000 400 1000 0 rfl
  · exact testPackage_bounds.2.2 C5ctxW ⟨e5W, false, 250, 250, 4⟩ stEmptyW C6stW
      250 250 4 [1] (by decide)

set_option maxRecDepth 4000000 in
/-- C7 counterexample: after exactly 1000 consecutive TestPackage
failures with nBlockWeight above nBlockMaxWeight - 4000, the selector
does not terminate — it goes on to accept a later candidate (id 1003),
refuting termination after 1000 failures. -/
theorem consecutiveFailures_1000_cex :
    (selLoop C7ctxW 1001 (initSelState C7poolW)).nConsecutiveFailed = 1000 ∧
    (selLoop C7ctxW 1001 (initSelState C7poolW)).nBlockWeight >
      C7ctxW.nBlockMaxWeight - 4000 ∧
    (addPackageTxs C7ctxW).blockTxs = [aEntryW.id, zEntryW.id] := by
  refine ⟨?_, ?_, ?_⟩
  · decide
  · decide
  · decide

/-- C7 (amended): the consecutive-failure counter is incremented on each
TestPackage failure and reset to 0 on every acceptance; the loop breaks
out exactly when the incremented counter exceeds
MAX_CONSECUTIVE_FAILURES = 1000 (that is, on the 1001st consecutive
failure) while nBlockWeight > nBlockMaxWeight - 4000; and a `done` step
ends the loop regardless of remaining candidates. -/
theorem consecutiveFailures_rules :
    (∀ (C : SelCtx) (c : Cand) (st1 st2 : SelState) (sz : Nat) (f : Int) (sg : Nat),
      evalChosen C c st1 = .cont st2 (.pkgFailed sz f sg) →
      st2.nConsecutiveFailed = st1.nConsecutiveFailed + 1 ∧
      ¬ (st2.nConsecutiveFailed > MAX_CONSECUTIVE_FAILURES ∧
         st2.nBlockWeight > C.nBlockMaxWeight - 4000)) ∧
    (∀ (C : SelCtx) (c : Cand) (st1 st2 : SelState) (sz : Nat) (f : Int) (sg : Nat),
      evalChosen C c st1 = .done st2 (.pkgFailed sz f sg) →
      st2.nConsecutiveFailed = st1.nConsecutiveFailed + 1 ∧
      st2.nConsecutiveFailed > MAX_CONSECUTIVE_FAILURES ∧
      st2.nBlockWeight > C.nBlockMaxWeight - 4000) ∧
    (∀ (C : SelCtx) (c : Cand) (st1 st2 : SelState) (sz : Nat) (f : Int) (sg : Nat)
        (ids : List Nat),
      evalChosen C c st1 = .cont st2 (.accepted sz f sg ids) →
      st2.nConsecutiveFailed = 0) ∧
    (∀ (C : SelCtx) (fuel : Nat) (st st2 : SelState) (ev : SelEvent),
      selStep C st = .done st2 ev → selLoop C (fuel + 1) st = st2) := by
  refine ⟨?_, ?_, ?_, ?_⟩
  · intro C c st1 st2 sz f sg h
    unfold evalChosen at h
    split at h
    · exact StepRes.noConfusion h
    · split at h
      · split at h
        · exact StepRes.noConfusion h
        next hbr =>
          injection h with h1 hev
          subst h1
          exact ⟨(failState_fields st1 c).2.2.2.2.1, hbr⟩
      · split at h
        · injection h with h1 hev
          exact SelEvent.noConfusion hev
        · injection h with h1 hev
          exact SelEvent.noConfusion hev
  · intro C c st1 st2 sz f sg h
    unfold evalChosen at h
    split at h
    · injection h with h1 hev
      exact SelEvent.noConfusion hev
    · split at h
      · split at h
        next hbr =>
          injection h with h1 hev
          subst h1
          exact ⟨(failState_fields st1 c).2.2.2.2.1, hbr⟩
        · exact StepRes.noConfusion h
      · split at h
        · exact StepRes.noConfusion h
        · exact StepRes.noConfusion h
  · intro C c st1 st2 sz f sg ids h
    unfold evalChosen at h
    split at h
    · exact StepRes.noConfusion h
    · split at h
      · split at h
        · exact StepRes.noConfusion h
        · injection h with h1 hev
          exact SelEvent.noConfusion hev
      · split at h
        · injection h with h1 hev
          exact SelEvent.noConfusion hev
        · injection h with h1 hev
          subst h1
          show (acceptState C st1 c).nConsecutiveFailed = 0
          unfold acceptState
          rw [addLoop_counter]
  · intro C fuel st st2 ev h
    unfold selLoop
    rw [h]

/-- C7 witness: a concrete TestPackage failure increments the counter
without breaking. -/
theorem consecutiveFailures_rules_witness :
    evalChosen C7oneCtxW ⟨failOneW, false, 1000, 0, 0⟩ stEmptyW =
      .cont C7oneStW (.pkgFailed 1000 0 0) ∧
    C7oneStW.nConsecutiveFailed = stEmptyW.nConsecutiveFailed + 1 :=
  have h : evalChosen C7oneCtxW ⟨failOneW, false, 1000, 0, 0⟩ stEmptyW =
      .cont C7oneStW (.pkgFailed 1000 0 0) := by decide
  ⟨h, (consecutiveFailures_rules.1 C7oneCtxW ⟨failOneW, false, 1000, 0, 0⟩ stEmptyW
    C7oneStW 1000 0 0 h).1⟩

/-- C8 counterexample: std::sort only guarantees a count-sorted
permutation, so for two distinct entries of equal ancestor count the
reversed order is a permitted SortForBlock outcome — entries of equal
ancestor count need not keep their prior order. -/
theorem sortForBlock_stability_cex :
    SortForBlockSpec [s8aW, s8bW] [s8bW, s8aW] ∧
    s8aW.countWithAncestors = s8bW.countWithAncestors ∧
    [s8bW, s8aW] ≠ [s8aW, s8bW] := by
  refine ⟨⟨List.Perm.swap s8aW s8bW [], ?_⟩, ?_, ?_⟩
  · decide
  · decide
  · decide

/-- C8 (amended): for every sort behaviour permitted to SortForBlock
(any ancestor-count-ascending permutation, tie order unspecified) and
every well-formed mempool snapshot, the template built by the selector
is topologically valid: every in-mempool ancestor of a selected
transaction appears strictly earlier in the template. -/
theorem sortForBlock_topo (C : SelCtx)
    (hsort : ∀ l, SortForBlockSpec l (C.sortFn l)) (hwf : poolWF C.pool) :
    (∀ fuel, topoOKFrom C.pool [] ((selLoop C fuel (initSelState C.pool)).blockTxs)) ∧
    topoOKFrom C.pool [] ((addPackageTxs C).blockTxs) := by
  have hinit : SelInv C (initSelState C.pool) := by
    refine ⟨trivial, fun e he => he, fun m hm => ?_⟩
    simp [initSelState] at hm
  constructor
  · intro fuel
    exact (selLoop_inv hsort hwf fuel (initSelState C.pool) hinit).1
  · exact (selLoop_inv hsort hwf _ (initSelState C.pool) hinit).1

/-- C8 witness: on a concrete two-entry pool (child ahead of its parent
in score order) the produced template is topologically ordered. -/
theorem sortForBlock_topo_witness :
    topoOKFrom C8poolW [] ((addPackageTxs C8ctxW).blockTxs) :=
  (sortForBlock_topo C8ctxW (fun l => sortByCount_spec l)
    (by unfold poolWF; decide)).2

theorem getMaxTransactionTime_le {vtx : List BlockTxM} {bound : Nat}
    (h : ∀ t ∈ vtx, t.nTime ≤ bound) : getMaxTransactionTime vtx ≤ bound := by
  unfold getMaxTransactionTime
  have hgen : ∀ (l : List BlockTxM) (acc : Nat), acc ≤ bound → (∀ t ∈ l, t.nTime ≤ bound) →
      l.foldl (fun m tx => max m tx.nTime) acc ≤ bound := by
    intro l
    induction l with
    | nil => intro acc hacc _; exact hacc
    | cons t ts ih =>
      intro acc hacc hl
      simp only [List.foldl_cons]
      exact ih (max acc t.nTime)
        (max_le hacc (hl t (List.mem_cons_self t ts)))
        (fun u hu => hl u (List.mem_cons_of_mem t hu))
  exact hgen vtx 0 (Nat.zero_le bound) h

theorem getMaxTransactionTime_ge {vtx : List BlockTxM} {t : BlockTxM}
    (h : t ∈ vtx) : t.nTime ≤ getMaxTransactionTime vtx := by
  unfold getMaxTransactionTime
  have hgen : ∀ (l : List BlockTxM) (acc : Nat), t ∈ l →
      t.nTime ≤ l.foldl (fun m tx => max m tx.nTime) acc := by
    intro l
    induction l with
    | nil => intro acc ht; simp at ht
    | cons u us ih =>
      intro acc ht
      simp only [List.foldl_cons]
      rcases List.mem_cons.mp ht with rfl | ht
      · have hmono : ∀ (l2 : List BlockTxM) (a b : Nat), a ≤ b →
            a ≤ l2.foldl (fun m tx => max m tx.nTime) b := by
          intro l2
          induction l2 with
          | nil => intro a b hab; exact hab
          | cons v vs ih2 =>
            intro a b hab
            simp only [List.foldl_cons]
            exact ih2 a (max b v.nTime) (le_trans hab (le_max_left b v.nTime))
        exact hmono us t.nTime (max acc t.nTime) (le_max_right acc t.nTime)
      · exact ih (max acc u.nTime) ht
  exact hgen vtx 0 h

set_option maxRecDepth 1000000 in
/-- C9 counterexample: a returned proof-of-stake template whose header
time (100, from a later-stamped selected transaction) differs from the
coinstake time vtx[1].nTime = 96, refuting block.nTime == vtx[1].nTime;
the cancel flag is nevertheless cleared. -/
theorem createNewBlock_time_cex :
    (CreateNewBlock C9ctxW true).2 = false ∧
    ((CreateNewBlock C9ctxW true).1.getD ⟨[], 0, 0, false⟩).nTime = 100 ∧
    (((CreateNewBlock C9ctxW true).1.getD ⟨[], 0, 0, false⟩).vtx.getD 1 ⟨0, []⟩).nTime
      = 96 := by
  refine ⟨?_, ?_, ?_⟩
  · decide
  · decide
  · decide

/-- C9 (amended): with a staking wallet, when the search gate passes,
the coinstake search succeeds and txCoinStake.nTime is at least
MedianTimePast + 1, CreateNewBlock returns a proof-of-stake template
with the cancel flag cleared, an emptied single-output coinbase
carrying the coinstake time at index 0, the coinstake at index 1, and
header time max(MedianTimePast + 1, max transaction time) — equal to
vtx[1].nTime exactly when no selected transaction is stamped later;
when any step fails the cancel flag stays set and the template is
null. -/
theorem createNewBlock_pos_cases (C : CNBCtx) :
    (∀ cs : BlockTxM, maskedTime C > C.lastCoinStakeSearchTime →
      C.createCoinStake (maskedTime C) = some cs →
      cs.nTime ≥ C.medianTimePast + 1 →
      CreateNewBlock C true = (some (posBlockOf C cs), false) ∧
      (posBlockOf C cs).isProofOfStake = true ∧
      (posBlockOf C cs).vtx.getD 0 ⟨0, []⟩ = ⟨cs.nTime, [⟨0, true⟩]⟩ ∧
      (posBlockOf C cs).vtx.getD 1 ⟨0, []⟩ = cs ∧
      (posBlockOf C cs).nTime =
        max (C.medianTimePast + 1) (getMaxTransactionTime (posBlockOf C cs).vtx) ∧
      ((∀ t ∈ selectedTxs C (addPackageTxs (selCtxOf C)), t.nTime ≤ cs.nTime) →
        (posBlockOf C cs).nTime = cs.nTime)) ∧
    (¬ maskedTime C > C.lastCoinStakeSearchTime → CreateNewBlock C true = (none, true)) ∧
    (maskedTime C > C.lastCoinStakeSearchTime → C.createCoinStake (maskedTime C) = none →
      CreateNewBlock C true = (none, true)) ∧
    (∀ cs : BlockTxM, maskedTime C > C.lastCoinStakeSearchTime →
      C.createCoinStake (maskedTime C) = some cs → cs.nTime < C.medianTimePast + 1 →
      CreateNewBlock C true = (none, true)) := by
  refine ⟨?_, ?_, ?_, ?_⟩
  · intro cs hgate hcs htime
    refine ⟨?_, rfl, rfl, rfl, rfl, ?_⟩
    · show (if maskedTime C > C.lastCoinStakeSearchTime then
          match C.createCoinStake (maskedTime C) with
          | some txCoinStake =>
            if txCoinStake.nTime ≥ C.medianTimePast + 1 then
              (some (posBlockOf C txCoinStake), false)
            else (none, true)
          | none => (none, true)
        else (none, true)) = (some (posBlockOf C cs), false)
      rw [if_pos hgate, hcs]
      show (if cs.nTime ≥ C.medianTimePast + 1 then (some (posBlockOf C cs), false)
        else (none, true)) = (some (posBlockOf C cs), false)
      rw [if_pos htime]
    · intro hb
      have hle : getMaxTransactionTime (posBlockOf C cs).vtx ≤ cs.nTime := by
        apply getMaxTransactionTime_le
        intro t ht
        rcases List.mem_cons.mp ht with rfl | ht
        · exact le_refl _
        · rcases List.mem_cons.mp ht with rfl | ht
          · exact le_refl _
          · exact hb t ht
      have hge : cs.nTime ≤ getMaxTransactionTime (posBlockOf C cs).vtx :=
        getMaxTransactionTime_ge
          (List.mem_cons_of_mem _ (List.mem_cons_self cs _))
      have heq : getMaxTransactionTime (posBlockOf C cs).vtx = cs.nTime :=
        le_antisymm hle hge
      show max (C.medianTimePast + 1)
          (getMaxTransactionTime (posBlockOf C cs).vtx) = cs.nTime
      rw [heq]
      exact max_eq_right htime
  · intro hgate
    show (if maskedTime C > C.lastCoinStakeSearchTime then
        match C.createCoinStake (maskedTime C) with
        | some txCoinStake =>
          if txCoinStake.nTime ≥ C.medianTimePast + 1 then
            (some (posBlockOf C txCoinStake), false)
          else (none, true)
        | none => (none, true)
      else (none, true)) = ((none : Option BlockM), true)
    rw [if_neg hgate]
  · intro hgate hnone
    show (if maskedTime C > C.lastCoinStakeSearchTime then
        match C.createCoinStake (maskedTime C) with
        | some txCoinStake =>
          if txCoinStake.nTime ≥ C.medianTimePast + 1 then
            (some (posBlockOf C txCoinStake), false)
          else (none, true)
        | none => (none, true)
      else (none, true)) = ((none : Option BlockM), true)
    rw [if_pos hgate, hnone]
  · intro cs hgate hcs htime
    show (if maskedTime C > C.lastCoinStakeSearchTime then
        match C.createCoinStake (maskedTime C) with
        | some txCoinStake =>
          if txCoinStake.nTime ≥ C.medianTimePast + 1 then
            (some (posBlockOf C txCoinStake), false)
          else (none, true)
        | none => (none, true)
      else (none, true)) = ((none : Option BlockM), true)
    rw [if_pos hgate, hcs]
    show (if cs.nTime ≥ C.medianTimePast + 1 then (some (posBlockOf C cs), false)
      else (none, true)) = ((none : Option BlockM), true)
    rw [if_neg (not_le.mpr htime)]

/-- C9 witness: when the coinstake search gate fails, the cancel flag
stays set and the template is null. -/
theorem createNewBlock_pos_cases_witness :
    CreateNewBlock C9failCtxW true = (none, true) :=
  (createNewBlock_pos_cases C9failCtxW).2.1 (by decide)

/-- C10: UpdateTime never decreases the header time — afterwards
pblock.nTime equals the maximum of its previous value and
max(MedianTimePast + 1, AdjustedTimeSeconds()), so it is overwritten
only when the recomputed time is strictly greater. -/
theorem updateTime_max (adjTime medianTimePast : Int) (minDiff : Bool)
    (ntr : Bool → Nat) (b : HeaderM) :
    ((UpdateTime adjTime medianTimePast minDiff ntr b).1).nTime =
      max b.nTime (max (medianTimePast + 1) adjTime) ∧
    b.nTime ≤ ((UpdateTime adjTime medianTimePast minDiff ntr b).1).nTime := by
  simp only [UpdateTime]
  by_cases hlt : b.nTime < max (medianTimePast + 1) adjTime
  · rw [if_pos hlt]
    have h1 : max b.nTime (max (medianTimePast + 1) adjTime) =
        max (medianTimePast + 1) adjTime := max_eq_right (le_of_lt hlt)
    split
    · exact ⟨h1.symm, le_of_lt hlt⟩
    · exact ⟨h1.symm, le_of_lt hlt⟩
  · rw [if_neg hlt]
    have h1 : max b.nTime (max (medianTimePast + 1) adjTime) = b.nTime :=
      max_eq_left (le_of_not_lt hlt)
    split
    · exact ⟨h1.symm, le_refl _⟩
    · exact ⟨h1.symm, le_refl _⟩
